import Mathlib

/-!
Verification of the cipher-breaking repository (monoalphabetic substitution and
columnar transposition cryptanalysis).

This file shallowly embeds the Python sources:
  src/src/breakers/permutation_breaker.py
  src/src/breakers/substitution_breaker.py
  src/src/utils/frequency_analyzer.py
  src/src/utils/ngram_scorer.py
  src/scripts/cipher_generator.py

Conventions of the embedding:
* Python strings are `List Char`; `str.upper()` and `str.isalpha()` are modelled
  on the ASCII range the repository operates on.
* Python dicts (character mappings, n-gram tables) are insertion-ordered
  association lists with first-match lookup and in-place value replacement.
* Python floats are modelled as `ℚ` where the computed value is an exact
  rational (frequencies, chi-squared, evaluation scores) and as `ℝ` where
  logarithms are involved (n-gram log-probability scores).
* Fallible operations (KeyError, ZeroDivisionError, ValueError) return
  `Except String` or `Option`, with the error string naming the Python
  exception raised at that point.
* Randomness (`random.sample`, `random.random`, `random.shuffle`) is modelled
  by explicit oracle streams passed as arguments; each call site consumes the
  stream in program order.
-/

namespace CipherBreak

/-- Decidable equality for `Except`, so that concrete runs of the fallible
embedded functions can be checked by `decide`. -/
instance {ε α : Type} [DecidableEq ε] [DecidableEq α] : DecidableEq (Except ε α) := fun x y =>
  match x, y with
  | .error e, .error f =>
    if h : e = f then isTrue (by subst h; rfl) else isFalse (fun hh => h (by cases hh; rfl))
  | .ok a, .ok b =>
    if h : a = b then isTrue (by subst h; rfl) else isFalse (fun hh => h (by cases hh; rfl))
  | .error _, .ok _ => isFalse (fun hh => by cases hh)
  | .ok _, .error _ => isFalse (fun hh => by cases hh)

/-- Models Python `str.upper()` per character on the ASCII range used by the
repository: lowercase ASCII letters map to uppercase, others are unchanged. -/
def upperChar (c : Char) : Char :=
  if 'a' ≤ c ∧ c ≤ 'z' then Char.ofNat (c.toNat - 32) else c

/-- Models Python `str.isalpha()` on the ASCII range used by the repository. -/
def pyIsAlpha (c : Char) : Bool :=
  ('A' ≤ c && c ≤ 'Z') || ('a' ≤ c && c ≤ 'z')

/-- Models `text.upper().replace(" ", "")` (cipher_generator.columnar_encrypt). -/
def upperNoSpaces (s : List Char) : List Char :=
  (s.map upperChar).filter (fun c => c != ' ')

/-- Models `text.upper().replace(' ', '').replace('\n', '')`
(PermutationBreaker._columnar_decrypt and NgramScorer.score). -/
def upperNoSpacesNewlines (s : List Char) : List Char :=
  (s.map upperChar).filter (fun c => c != ' ' && c != '\n')

/-! ### Association-list model of Python dicts -/

/-- First-match lookup, `d.get(k)` / `d[k]` success case. -/
def dictGet? {κ β : Type} [BEq κ] (m : List (κ × β)) (k : κ) : Option β :=
  (m.find? (fun e => e.1 == k)).map (fun e => e.2)

/-- Membership test, `k in d`. -/
def dictMem {κ β : Type} [BEq κ] (m : List (κ × β)) (k : κ) : Bool :=
  (m.find? (fun e => e.1 == k)).isSome

/-- Models `d[k] = v`: replaces the value at the first occurrence of the key,
keeping insertion order, or appends a new entry when the key is absent. -/
def dictSet {κ β : Type} [BEq κ] (m : List (κ × β)) (k : κ) (v : β) : List (κ × β) :=
  match m with
  | [] => [(k, v)]
  | e :: rest => if e.1 == k then (k, v) :: rest else e :: dictSet rest k v

/-! ### Columnar transposition

`columnar_encrypt` comes from src/scripts/cipher_generator.py (lines 11-32);
`columnar_decrypt` from PermutationBreaker._columnar_decrypt
(src/src/breakers/permutation_breaker.py, lines 11-33).

The encryption grid is filled row-major (`grid[row][col] = plaintext[idx]`
with `idx` running consecutively while `idx < len(plaintext)`), so cell
`(row, col)` holds `plaintext[row * n_cols + col]` when that index is in
range and stays empty otherwise; columns are then read out in ascending
order of the key values. The decryption grid is reconstructed by giving each
column, in the same ascending-key order, the next contiguous slice of the
ciphertext sized by the remainder-aware column length, and reading the grid
row-major. Empty string cells (which Python's truthiness test and `join`
drop) are modelled by `Option`/`filterMap`. -/

/-- Models `sorted(range(n_cols), key=lambda x: key[x])` — column indices in
ascending order of their key values. Python's sort is stable; a stable sort
under a fixed total preorder has a unique output, so the stable
`insertionSort` produces the same list. -/
def sortedPositions (key : List ℕ) : List ℕ :=
  (List.range key.length).insertionSort (fun a b => key.getD a 0 ≤ key.getD b 0)

/-- Contents of one encryption-grid column: the plaintext characters at
row-major indices `row * nCols + col` that are in range (the cells Python
fills; out-of-range cells stay `""` and are dropped by the truthiness test). -/
def colContents (pt : List Char) (nCols nRows col : ℕ) : List Char :=
  (List.range nRows).filterMap (fun row => pt[row * nCols + col]?)

/-- Core of `columnar_encrypt` on the normalized plaintext: concatenate the
grid columns in ascending order of their key values. -/
def columnar_encrypt_core (pt : List Char) (key : List ℕ) : List Char :=
  (sortedPositions key).flatMap
    (colContents pt key.length ((pt.length + key.length - 1) / key.length))

/-- Models `columnar_encrypt(plaintext, key)`. An empty key makes Python raise
`ZeroDivisionError` at `math.ceil(len(plaintext) / n_cols)`. -/
def columnar_encrypt (plaintext : List Char) (key : List ℕ) : Except String (List Char) :=
  if key.length = 0 then .error "ZeroDivisionError"
  else .ok (columnar_encrypt_core (upperNoSpaces plaintext) key)

/-- Models the `col_lengths` array of `_columnar_decrypt`: every column starts
at `n_rows`, and when `len(ciphertext) % n_cols ≠ 0` the columns from position
`remainder` onward are shortened to `n_rows - 1`. -/
def colLengths (L nCols : ℕ) : List ℕ :=
  (List.range nCols).map (fun col =>
    if L % nCols ≠ 0 ∧ L % nCols ≤ col then (L + nCols - 1) / nCols - 1
    else (L + nCols - 1) / nCols)

/-- Start offset of a column's ciphertext slice: the sum of the lengths of the
columns processed before it in ascending-key order (the running `idx` of the
sequential fill loop in `_columnar_decrypt`). -/
def colStart (lens : List ℕ) (sorted : List ℕ) (col : ℕ) : ℕ :=
  ((sorted.takeWhile (fun c => c != col)).map (fun c => lens.getD c 0)).sum

/-- Core of `_columnar_decrypt` on the normalized ciphertext: cell
`(row, col)` of the reconstructed grid holds ciphertext character
`colStart col + row` when `row` is within the column's length, and the grid
is read out row-major. -/
def columnar_decrypt_core (ct : List Char) (key : List ℕ) : List Char :=
  (List.range ((ct.length + key.length - 1) / key.length)).flatMap (fun row =>
    (List.range key.length).filterMap (fun col =>
      if row < (colLengths ct.length key.length).getD col 0 then
        ct[colStart (colLengths ct.length key.length) (sortedPositions key) col + row]?
      else none))

/-- Models `PermutationBreaker._columnar_decrypt(ciphertext, key)`. An empty
key makes Python raise `ZeroDivisionError`. -/
def columnar_decrypt (ciphertext : List Char) (key : List ℕ) : Except String (List Char) :=
  if key.length = 0 then .error "ZeroDivisionError"
  else .ok (columnar_decrypt_core (upperNoSpacesNewlines ciphertext) key)

/-! ### FrequencyAnalyzer (src/src/utils/frequency_analyzer.py) -/

/-- The 26 uppercase letters, `string.ascii_uppercase` (`self.alphabet` /
`self.letters`). -/
def alphabetList : List Char := "ABCDEFGHIJKLMNOPQRSTUVWXYZ".toList

/-- The repeated Python idiom `[c for c in text.upper() if c.isalpha()]`. -/
def lettersOnly (text : List Char) : List Char :=
  (text.map upperChar).filter pyIsAlpha

/-- The analyzer's state after construction: its reference letter-frequency
table `self.char_frequencies` (percentages). Both the CSV loader and the
built-in fallback produce a table whose keys are exactly the 26 alphabet
letters. -/
structure FrequencyAnalyzer where
  charFrequencies : List (Char × ℚ)

/-- The built-in fallback table `DEFAULT_CHAR_FREQUENCIES`, in its Python
insertion order. -/
def DEFAULT_CHAR_FREQUENCIES : List (Char × ℚ) :=
  [('E', 12.70), ('T', 9.06), ('A', 8.17), ('O', 7.51), ('I', 6.97),
   ('N', 6.75), ('S', 6.33), ('H', 6.09), ('R', 5.99), ('D', 4.25),
   ('L', 4.03), ('C', 2.78), ('U', 2.76), ('M', 2.41), ('W', 2.36),
   ('F', 2.23), ('G', 2.02), ('Y', 1.97), ('P', 1.93), ('B', 1.29),
   ('V', 0.98), ('K', 0.77), ('J', 0.15), ('X', 0.15), ('Q', 0.10), ('Z', 0.07)]

/-- The analyzer built on the fallback table (the no-corpus configuration). -/
def defaultAnalyzer : FrequencyAnalyzer := ⟨DEFAULT_CHAR_FREQUENCIES⟩

/-- Models `FrequencyAnalyzer.calculate_char_frequencies`: `{}` when the text
has no letters, otherwise the percentage `count / total * 100` for every
alphabet letter, in alphabet order. -/
def calculate_char_frequencies (text : List Char) : List (Char × ℚ) :=
  if lettersOnly text = [] then []
  else alphabetList.map (fun ch =>
    (ch, ((lettersOnly text).count ch : ℚ) / ((lettersOnly text).length : ℚ) * 100))

/-- Models `FrequencyAnalyzer.calculate_index_of_coincidence`:
`Σ nᵢ(nᵢ−1) / (N(N−1))` over the counts of the distinct letters present
(`Counter.values()`), or `0.0` when fewer than two letters are present. -/
def calculate_index_of_coincidence (text : List Char) : ℚ :=
  if (lettersOnly text).length < 2 then 0
  else ((((lettersOnly text).dedup.map
      (fun c => (lettersOnly text).count c * ((lettersOnly text).count c - 1))).sum : ℕ) : ℚ) /
    ((((lettersOnly text).length * ((lettersOnly text).length - 1)) : ℕ) : ℚ)

/-- Models `FrequencyAnalyzer.calculate_chi_squared`: summed over the alphabet
letters with positive expected frequency, `(observed − expected)² / expected`.
(The `mapping` parameter is taken and ignored exactly as in the source.) -/
def calculate_chi_squared (fa : FrequencyAnalyzer) (text : List Char)
    (mapping : List (Char × Char)) : ℚ :=
  (alphabetList.map (fun ch =>
    if 0 < (dictGet? fa.charFrequencies ch).getD 0 then
      ((dictGet? (calculate_char_frequencies text) ch).getD 0
        - (dictGet? fa.charFrequencies ch).getD 0) ^ 2
        / (dictGet? fa.charFrequencies ch).getD 0
    else 0)).sum

/-- Models `sorted(d.items(), key=lambda x: x[1], reverse=True)`: stable
descending sort by value (stable sorts under one total preorder agree, so the
stable `insertionSort` matches Python's output). -/
def sortDescByVal (l : List (Char × ℚ)) : List (Char × ℚ) :=
  l.insertionSort (fun a b => b.2 ≤ a.2)

/-- The inner loop of `create_frequency_mapping`: scan the expected table with
its enumeration index `j`, skip plain letters already used, score the rest by
`|cipher_freq − expected_freq| + |i − j| * 0.5`, and keep the first strict
minimizer. The accumulator `none` plays `best_score = float('inf')`. -/
def pickBestAux (cfv : ℚ) (i : ℕ) (used : List Char) :
    List (ℕ × Char × ℚ) → Option (Char × ℚ) → Option (Char × ℚ)
  | [], acc => acc
  | (j, p, ev) :: rest, acc =>
    if p ∈ used then pickBestAux cfv i used rest acc
    else
      match acc with
      | none => pickBestAux cfv i used rest (some (p, |cfv - ev| + |(i : ℚ) - (j : ℚ)| * (1/2)))
      | some (bm, bs) =>
        if |cfv - ev| + |(i : ℚ) - (j : ℚ)| * (1/2) < bs then
          pickBestAux cfv i used rest (some (p, |cfv - ev| + |(i : ℚ) - (j : ℚ)| * (1/2)))
        else pickBestAux cfv i used rest (some (bm, bs))

/-- The `best_match` chosen for one cipher letter. -/
def pickBest (cfv : ℚ) (i : ℕ) (sortedExpected : List (Char × ℚ)) (used : List Char) :
    Option Char :=
  (pickBestAux cfv i used sortedExpected.enum none).map Prod.fst

/-- The main greedy loop of `create_frequency_mapping` over the enumerated
sorted cipher letters, threading `(mapping, used_plain)`. -/
def createMappingFold (sortedExpected : List (Char × ℚ)) :
    List (ℕ × Char × ℚ) → List (Char × Char) × List Char → List (Char × Char) × List Char
  | [], st => st
  | (i, cc, cfv) :: rest, (mapping, used) =>
    if dictMem mapping cc then createMappingFold sortedExpected rest (mapping, used)
    else
      match pickBest cfv i sortedExpected used with
      | some bm => createMappingFold sortedExpected rest (dictSet mapping cc bm, used ++ [bm])
      | none => createMappingFold sortedExpected rest (mapping, used)

/-- The leftover loop of `create_frequency_mapping`: enumerate the unmapped
cipher letters, pair them with the unused plain letters while any remain, then
self-map. -/
def assignLeftovers (unusedPlain : List Char) :
    List (ℕ × Char) → List (Char × Char) → List (Char × Char)
  | [], mapping => mapping
  | (i, cc) :: rest, mapping =>
    if i < unusedPlain.length then
      assignLeftovers unusedPlain rest (dictSet mapping cc (unusedPlain.getD i cc))
    else
      assignLeftovers unusedPlain rest (dictSet mapping cc cc)

/-- Models `FrequencyAnalyzer.create_frequency_mapping`. -/
def create_frequency_mapping (fa : FrequencyAnalyzer) (ciphertext : List Char) :
    List (Char × Char) :=
  if calculate_char_frequencies ciphertext = [] then []
  else
    assignLeftovers
      (alphabetList.filter (fun c =>
        !((createMappingFold (sortDescByVal fa.charFrequencies)
          (sortDescByVal (calculate_char_frequencies ciphertext)).enum ([], [])).2.contains c)))
      ((alphabetList.filter (fun c =>
        !(dictMem (createMappingFold (sortDescByVal fa.charFrequencies)
          (sortDescByVal (calculate_char_frequencies ciphertext)).enum ([], [])).1 c))).enum)
      (createMappingFold (sortDescByVal fa.charFrequencies)
        (sortDescByVal (calculate_char_frequencies ciphertext)).enum ([], [])).1

/-! ### SubstitutionBreaker decryption and mapping swaps
(src/src/breakers/substitution_breaker.py) -/

/-- Models `SubstitutionBreaker._decrypt`: uppercase the ciphertext, replace
alphabetic characters through `mapping.get(c, c)`, leave the rest unchanged. -/
def subst_decrypt (mapping : List (Char × Char)) (ciphertext : List Char) : List Char :=
  (ciphertext.map upperChar).map
    (fun c => if pyIsAlpha c then (dictGet? mapping c).getD c else c)

/-- Models `SubstitutionBreaker._swap_mapping` for a sampled pair `(a, b)`:
`new[a], new[b] = new[b], new[a]` — both lookups happen before the writes and
a missing key raises KeyError (`none`). -/
def swapMapping (mapping : List (Char × Char)) (a b : Char) :
    Option (List (Char × Char)) :=
  match dictGet? mapping a, dictGet? mapping b with
  | some va, some vb => some (dictSet (dictSet mapping a vb) b va)
  | _, _ => none

/-! ### NgramScorer (src/src/utils/ngram_scorer.py) -/

/-- The scorer's state after construction: the n-gram length, the
log-probability table and the floor value for absent n-grams. -/
structure NgramScorer where
  n : ℕ
  ngrams : List (List Char × ℝ)
  floor : ℝ

/-- Models `NgramScorer.score`: normalize the text, slide a window of length
`n` with step 1 (`range(len(text) - self.n + 1)`, empty when the normalized
text is shorter than `n`), and accumulate the table's value for each window or
the floor when the window is absent. -/
noncomputable def ngramScore (sc : NgramScorer) (text : List Char) : ℝ :=
  (List.range ((upperNoSpacesNewlines text).length + 1 - sc.n)).foldl
    (fun acc i =>
      acc + match dictGet? sc.ngrams (((upperNoSpacesNewlines text).drop i).take sc.n) with
        | some v => v
        | none => sc.floor) 0

/-- Python whitespace test for `str.split()` (the corpus tokens involved are
ASCII). -/
def isWs (c : Char) : Bool := c == ' ' || c == '\t' || c == '\n' || c == '\r'

/-- Models `line.strip().split()`: split on whitespace runs, dropping empty
tokens (a leading `strip` is subsumed). -/
def splitWs (s : List Char) : List (List Char) :=
  (s.foldr (fun c acc =>
    if isWs c then [] :: acc
    else match acc with
      | [] => [[c]]
      | t :: ts => (c :: t) :: ts) []).filter (fun t => !t.isEmpty)

/-- Models Python `int(token)` on a whitespace-free token: an optional sign
followed by one or more decimal digits; anything else raises ValueError
(`none`). -/
def digitsVal? (s : List Char) : Option ℕ :=
  if !s.isEmpty && s.all Char.isDigit then
    some (s.foldl (fun acc c => acc * 10 + (c.toNat - 48)) 0)
  else none

/-- Python `int(token)` with an optional leading sign. -/
def pyInt? (s : List Char) : Option ℤ :=
  match s with
  | '+' :: rest => (digitsVal? rest).map (fun v => (v : ℤ))
  | '-' :: rest => (digitsVal? rest).map (fun v => -(v : ℤ))
  | _ => (digitsVal? s).map (fun v => (v : ℤ))

/-- Models the reading loop of `NgramScorer._load_ngrams` over the file's
lines: a line splitting into exactly two tokens has its count parsed by `int`
(raising ValueError — an error — on a non-integer token) and is stored in the
table (overwriting a duplicate n-gram) while the count is added to the running
total; every other line is skipped. Returns the count table and the total. -/
def loadNgramCounts (lines : List (List Char)) :
    Except String (List (List Char × ℤ) × ℤ) :=
  lines.foldlM (fun (st : List (List Char × ℤ) × ℤ) line =>
    if (splitWs line).length = 2 then
      match pyInt? ((splitWs line).getD 1 []) with
      | some k => Except.ok (dictSet st.1 ((splitWs line).getD 0 []) k, st.2 + k)
      | none => Except.error "ValueError"
    else Except.ok st) ([], 0)

/-- Models the normalization phase of `_load_ngrams` and the resulting scorer:
each stored count becomes `log10(count / total)` and the floor is
`log10(0.01 / total)`. (With `total = 0` Python raises ZeroDivisionError and
with nonpositive ratios `log10` raises a domain error; no claim is settled
against this phase.) -/
noncomputable def mkNgramScorer (n : ℕ) (counts : List (List Char × ℤ)) (total : ℤ) :
    NgramScorer :=
  ⟨n, counts.map (fun e => (e.1, Real.logb 10 ((e.2 : ℝ) / (total : ℝ)))),
    Real.logb 10 ((1 / 100 : ℝ) / (total : ℝ))⟩

/-! ### SubstitutionBreaker search (src/src/breakers/substitution_breaker.py)

Randomness oracles: `pairs k` is the `k`-th `random.sample(self.letters, 2)`
result, `rand k` the `k`-th `random.random()` draw, `shuffles r` the `r`-th
`random.shuffle` output, `idxPairs k` the `k`-th
`random.sample(range(min(15, len)), 2)` result. Indices are threaded through
the state in program order. -/

/-- The breaker's constructor state. -/
structure SubstitutionBreaker where
  scorer : NgramScorer
  analyzer : FrequencyAnalyzer
  maxIterations : ℕ
  numRestarts : ℕ
  useSoftClimbing : Bool

/-- Models `_random_mapping` given the shuffled plain alphabet produced by
`random.shuffle`. -/
def random_mapping (shuffled : List Char) : List (Char × Char) :=
  alphabetList.zip shuffled

/-- The common-bigram set used by `_evaluate_mapping`. -/
def common_bigrams : List (List Char) :=
  ["TH", "HE", "IN", "ER", "AN", "RE", "ED", "ND", "ON", "EN", "AT", "OU",
    "IT", "IS", "OR", "TI", "AS", "TO", "HA", "ET"].map String.toList

/-- The bigram bonus of `_evaluate_mapping`: the number of windows of length 2
of the letters-only text that are common bigrams (0 when fewer than two
letters). -/
def bigram_bonus (letters : List Char) : ℕ :=
  if 2 ≤ letters.length then
    (List.range (letters.length - 1)).countP
      (fun i => common_bigrams.contains ((letters.drop i).take 2))
  else 0

/-- Models `SubstitutionBreaker._evaluate_mapping`: chi-squared of the
decryption minus twice the common-bigram count of its letters. -/
def evaluate_mapping (fa : FrequencyAnalyzer) (ciphertext : List Char)
    (mapping : List (Char × Char)) : ℚ :=
  calculate_chi_squared fa (subst_decrypt mapping ciphertext) mapping
    - (bigram_bonus (lettersOnly (subst_decrypt mapping ciphertext)) : ℚ) * 2

/-- The best-so-far state of `break_cipher_frequency_only`'s loop. -/
structure FreqOnlyState where
  bestMapping : List (Char × Char)
  bestText : List Char
  bestScore : ℚ
deriving DecidableEq

/-- One iteration of `break_cipher_frequency_only`'s loop: when at least two
cipher letters were ranked, pick the sampled pair of top-frequency cipher
letters, swap their images in a copy of the best mapping, and accept the copy
exactly when its `_evaluate_mapping` score is strictly lower than the
incumbent's. -/
def freqOnlyStep (fa : FrequencyAnalyzer) (ciphertext : List Char)
    (sortedCipher : List (Char × ℚ)) (pr : ℕ × ℕ) (st : FreqOnlyState) :
    FreqOnlyState :=
  if 2 ≤ sortedCipher.length then
    if dictMem st.bestMapping (sortedCipher.getD pr.1 ('A', 0)).1 &&
        dictMem st.bestMapping (sortedCipher.getD pr.2 ('A', 0)).1 then
      match swapMapping st.bestMapping (sortedCipher.getD pr.1 ('A', 0)).1
          (sortedCipher.getD pr.2 ('A', 0)).1 with
      | some testMapping =>
        if evaluate_mapping fa ciphertext testMapping < st.bestScore then
          ⟨testMapping, subst_decrypt testMapping ciphertext,
            evaluate_mapping fa ciphertext testMapping⟩
        else st
      | none => st
    else st
  else st

/-- Models `SubstitutionBreaker.break_cipher_frequency_only`: seed from the
frequency mapping, run 100 swap iterations among the 15 most frequent cipher
letters, and return the best text and mapping together with the final
chi-squared value. -/
def break_cipher_frequency_only (fa : FrequencyAnalyzer) (ciphertext : List Char)
    (idxPairs : ℕ → ℕ × ℕ) : List Char × List (Char × Char) × ℚ :=
  let mapping := create_frequency_mapping fa ciphertext
  let stF := (List.range 100).foldl
    (fun st k => freqOnlyStep fa ciphertext
      (sortDescByVal (calculate_char_frequencies ciphertext)) (idxPairs k) st)
    ⟨mapping, subst_decrypt mapping ciphertext, evaluate_mapping fa ciphertext mapping⟩
  (stF.bestText, stF.bestMapping, calculate_chi_squared fa stF.bestText stF.bestMapping)

/-- The mutable state of `_hill_climb`, including the oracle-stream positions
(`pairIdx` counts `_swap_mapping` calls, `randIdx` counts `random.random()`
calls). -/
structure HillState where
  currentMapping : List (Char × Char)
  currentText : List Char
  currentScore : ℝ
  bestMapping : List (Char × Char)
  bestText : List Char
  bestScore : ℝ
  noImprovement : ℕ
  acceptanceProb : ℝ
  pairIdx : ℕ
  randIdx : ℕ

/-- The acceptance logic of one `_hill_climb` iteration over the sampled
neighbor `(neighborMapping, neighborText, neighborScore)`: strict improvements
are always accepted (updating the global best when strictly above it), worse
or equal neighbors are accepted with the decaying probability in soft mode,
and rejections bump the no-improvement counter. -/
noncomputable def hillMove (useSoft : Bool) (coolingRate : ℝ) (rand : ℕ → ℝ)
    (neighborMapping : List (Char × Char)) (neighborText : List Char)
    (neighborScore : ℝ) (st : HillState) : HillState :=
  if 0 < neighborScore - st.currentScore then
    if st.bestScore < neighborScore then
      { st with
          currentMapping := neighborMapping
          currentText := neighborText
          currentScore := neighborScore
          noImprovement := 0
          bestMapping := neighborMapping
          bestText := neighborText
          bestScore := neighborScore
          pairIdx := st.pairIdx + 1 }
    else
      { st with
          currentMapping := neighborMapping
          currentText := neighborText
          currentScore := neighborScore
          noImprovement := 0
          pairIdx := st.pairIdx + 1 }
  else if useSoft && decide (0 < st.acceptanceProb) then
    if rand st.randIdx < st.acceptanceProb then
      { st with
          currentMapping := neighborMapping
          currentText := neighborText
          currentScore := neighborScore
          noImprovement := 0
          acceptanceProb := st.acceptanceProb * coolingRate
          pairIdx := st.pairIdx + 1
          randIdx := st.randIdx + 1 }
    else
      { st with
          noImprovement := st.noImprovement + 1
          pairIdx := st.pairIdx + 1
          randIdx := st.randIdx + 1 }
  else
    { st with
        noImprovement := st.noImprovement + 1
        pairIdx := st.pairIdx + 1 }

/-- One iteration of `_hill_climb`: swap a sampled pair in the current mapping
(KeyError when a sampled letter is not a key), run the acceptance logic
(`hillMove`), and finally perform the plateau-escape forced swap when the
no-improvement counter exceeds `max_iterations // 10`. -/
noncomputable def hillStep (B : SubstitutionBreaker) (ct : List Char) (useSoft : Bool)
    (initialProb coolingRate : ℝ) (pairs : ℕ → Char × Char) (rand : ℕ → ℝ)
    (st : HillState) : Except String HillState :=
  match swapMapping st.currentMapping (pairs st.pairIdx).1 (pairs st.pairIdx).2 with
  | none => .error "KeyError"
  | some neighborMapping =>
    if B.maxIterations / 10 <
        (hillMove useSoft coolingRate rand neighborMapping
          (subst_decrypt neighborMapping ct)
          (ngramScore B.scorer (subst_decrypt neighborMapping ct)) st).noImprovement then
      match swapMapping
          (hillMove useSoft coolingRate rand neighborMapping
            (subst_decrypt neighborMapping ct)
            (ngramScore B.scorer (subst_decrypt neighborMapping ct)) st).currentMapping
          (pairs (hillMove useSoft coolingRate rand neighborMapping
            (subst_decrypt neighborMapping ct)
            (ngramScore B.scorer (subst_decrypt neighborMapping ct)) st).pairIdx).1
          (pairs (hillMove useSoft coolingRate rand neighborMapping
            (subst_decrypt neighborMapping ct)
            (ngramScore B.scorer (subst_decrypt neighborMapping ct)) st).pairIdx).2 with
      | none => .error "KeyError"
      | some jumpedMapping =>
        .ok { hillMove useSoft coolingRate rand neighborMapping
                (subst_decrypt neighborMapping ct)
                (ngramScore B.scorer (subst_decrypt neighborMapping ct)) st with
                currentMapping := jumpedMapping
                currentText := subst_decrypt jumpedMapping ct
                currentScore := ngramScore B.scorer (subst_decrypt jumpedMapping ct)
                noImprovement := 0
                acceptanceProb := if useSoft then initialProb * (1 / 2) else
                  (hillMove useSoft coolingRate rand neighborMapping
                    (subst_decrypt neighborMapping ct)
                    (ngramScore B.scorer (subst_decrypt neighborMapping ct)) st).acceptanceProb
                pairIdx := (hillMove useSoft coolingRate rand neighborMapping
                  (subst_decrypt neighborMapping ct)
                  (ngramScore B.scorer (subst_decrypt neighborMapping ct)) st).pairIdx + 1 }
    else .ok (hillMove useSoft coolingRate rand neighborMapping
      (subst_decrypt neighborMapping ct)
      (ngramScore B.scorer (subst_decrypt neighborMapping ct)) st)

/-- The bounded iteration of `_hill_climb`'s `for` loop. -/
noncomputable def hillLoop (B : SubstitutionBreaker) (ct : List Char) (useSoft : Bool)
    (initialProb coolingRate : ℝ) (pairs : ℕ → Char × Char) (rand : ℕ → ℝ) :
    ℕ → HillState → Except String HillState
  | 0, st => .ok st
  | k + 1, st => do
    hillLoop B ct useSoft initialProb coolingRate pairs rand k
      (← hillStep B ct useSoft initialProb coolingRate pairs rand st)

/-- The starting state of `_hill_climb`: current and best both at the initial
mapping, zero no-improvement count, and the initial acceptance probability
(zero when soft climbing is off). -/
noncomputable def hillInit (B : SubstitutionBreaker) (ct : List Char)
    (initialMapping : List (Char × Char)) (useSoft : Bool) (initialProb : ℝ) : HillState :=
  ⟨initialMapping, subst_decrypt initialMapping ct,
    ngramScore B.scorer (subst_decrypt initialMapping ct),
    initialMapping, subst_decrypt initialMapping ct,
    ngramScore B.scorer (subst_decrypt initialMapping ct),
    0, if useSoft then initialProb else 0, 0, 0⟩

/-- Models `SubstitutionBreaker._hill_climb`: initialize current and best from
the initial mapping, run `max_iterations` iterations, return
`(best_mapping, best_text, best_score)`. -/
noncomputable def hill_climb (B : SubstitutionBreaker) (ct : List Char)
    (initialMapping : List (Char × Char)) (useSoft : Bool)
    (initialProb coolingRate : ℝ) (pairs : ℕ → Char × Char) (rand : ℕ → ℝ) :
    Except String (List (Char × Char) × List Char × ℝ) := do
  let stF ← hillLoop B ct useSoft initialProb coolingRate pairs rand B.maxIterations
    (hillInit B ct initialMapping useSoft initialProb)
  pure (stF.bestMapping, stF.bestText, stF.bestScore)

/-- The strict-improvement candidate update shared by `break_cipher`'s restart
loop, with `⊥` playing `float('-inf')`. -/
noncomputable def betterCandidate
    (st : Option (List Char) × Option (List (Char × Char)) × WithBot ℝ)
    (m : List (Char × Char)) (t : List Char) (s : ℝ) :
    Option (List Char) × Option (List (Char × Char)) × WithBot ℝ :=
  if st.2.2 < (s : WithBot ℝ) then (some t, some m, (s : WithBot ℝ)) else st

/-- Models `SubstitutionBreaker.break_cipher`: the frequency-only mode simply
delegates; the hill-climbing mode runs one frequency-seeded attempt (when
enabled) and `num_restarts − 1` (resp. `num_restarts`) random restarts, and
keeps the strict-max-scoring candidate. -/
noncomputable def sub_break_cipher (B : SubstitutionBreaker) (ciphertext : List Char)
    (useFrequencyOnly useFrequencyInitial : Bool) (idxPairs : ℕ → ℕ × ℕ)
    (shuffles : ℕ → List Char) (pairs : ℕ → ℕ → Char × Char) (rand : ℕ → ℕ → ℝ) :
    Except String (Option (List Char) × Option (List (Char × Char)) × WithBot ℝ) :=
  if useFrequencyOnly then
    .ok (some (break_cipher_frequency_only B.analyzer ciphertext idxPairs).1,
      some (break_cipher_frequency_only B.analyzer ciphertext idxPairs).2.1,
      (((break_cipher_frequency_only B.analyzer ciphertext idxPairs).2.2 : ℝ) : WithBot ℝ))
  else do
    let st1 ← if useFrequencyInitial then do
        let res ← hill_climb B ciphertext (create_frequency_mapping B.analyzer ciphertext)
          B.useSoftClimbing (3 / 10) (999 / 1000) (pairs 0) (rand 0)
        pure (betterCandidate (none, none, ⊥) res.1 res.2.1 res.2.2)
      else pure ((none, none, ⊥) :
        Option (List Char) × Option (List (Char × Char)) × WithBot ℝ)
    (List.range (B.numRestarts - (if useFrequencyInitial then 1 else 0))).foldlM
      (fun st r => do
        let res ← hill_climb B ciphertext
          (random_mapping (shuffles r)) B.useSoftClimbing (3 / 10) (999 / 1000)
          (pairs (r + (if useFrequencyInitial then 1 else 0)))
          (rand (r + (if useFrequencyInitial then 1 else 0)))
        pure (betterCandidate st res.1 res.2.1 res.2.2)) st1

/-! ### PermutationBreaker search (src/src/breakers/permutation_breaker.py)

The breaker calls `self.scorer.score` on candidate decryptions; the scorer is
passed to the constructor, so the search is parameterized by the score
function. `initKeys r` is the shuffled starting key of annealing run `r`,
`saPairs r k` the `k`-th `random.sample(range(key_length), 2)` index pair of
run `r`, and `saRand r k` its `k`-th `random.random()` draw. -/

/-- Swap of two positions in a key list (`key[i], key[j] = key[j], key[i]`). -/
def listSwap (l : List ℕ) (i j : ℕ) : List ℕ :=
  (l.set i (l.getD j 0)).set j (l.getD i 0)

/-- Models `PermutationBreaker._brute_force`: try every permutation of
`range(key_length)`, decrypt and score it, and keep the strict-max-scoring
key and text (`float('-inf')` start modelled by `⊥`; the enumeration order of
`List.permutations` differs from `itertools.permutations`, which matters only
to tie-breaking). -/
noncomputable def bruteForce (score : List Char → ℝ) (ct : List Char) (keyLength : ℕ) :
    Except String (Option (List ℕ) × Option (List Char)) := do
  let st ← (List.permutations (List.range keyLength)).foldlM
    (fun (st : Option (List ℕ) × Option (List Char) × WithBot ℝ) perm => do
      let text ← columnar_decrypt ct perm
      if st.2.2 < ((score text : ℝ) : WithBot ℝ) then
        pure (some perm, some text, ((score text : ℝ) : WithBot ℝ))
      else pure st) (none, none, ⊥)
  pure (st.1, st.2.1)

/-- The mutable state of `_simulated_annealing`. -/
structure SAState where
  currentKey : List ℕ
  currentScore : ℝ
  bestKey : List ℕ
  bestText : List Char
  bestScore : ℝ
  temp : ℝ
  pairIdx : ℕ
  randIdx : ℕ

/-- One iteration of `_simulated_annealing`: swap two sampled positions,
score the decryption, accept on improvement or with Metropolis probability
`exp(delta / temp)` (the draw is consumed only when `delta ≤ 0`), otherwise
swap back; the temperature cools every iteration. -/
noncomputable def saStep (score : List Char → ℝ) (ct : List Char) (coolingRate : ℝ)
    (saPairs : ℕ → ℕ × ℕ) (saRand : ℕ → ℝ) (st : SAState) : Except String SAState := do
  let key1 := listSwap st.currentKey (saPairs st.pairIdx).1 (saPairs st.pairIdx).2
  let text ← columnar_decrypt ct key1
  let delta := score text - st.currentScore
  let randIdx' := if 0 < delta then st.randIdx else st.randIdx + 1
  if 0 < delta ∨ saRand st.randIdx < Real.exp (delta / st.temp) then
    if st.bestScore < score text then
      pure ⟨key1, score text, key1, text, score text, st.temp * coolingRate,
        st.pairIdx + 1, randIdx'⟩
    else
      pure ⟨key1, score text, st.bestKey, st.bestText, st.bestScore,
        st.temp * coolingRate, st.pairIdx + 1, randIdx'⟩
  else
    pure ⟨st.currentKey, st.currentScore, st.bestKey, st.bestText, st.bestScore,
      st.temp * coolingRate, st.pairIdx + 1, randIdx'⟩

/-- The bounded iteration of `_simulated_annealing`'s loop. -/
noncomputable def saLoop (score : List Char → ℝ) (ct : List Char) (coolingRate : ℝ)
    (saPairs : ℕ → ℕ × ℕ) (saRand : ℕ → ℝ) : ℕ → SAState → Except String SAState
  | 0, st => .ok st
  | k + 1, st => do
    saLoop score ct coolingRate saPairs saRand k (← saStep score ct coolingRate saPairs saRand st)

/-- Models `PermutationBreaker._simulated_annealing` for one run, given the
shuffled starting key. -/
noncomputable def simulated_annealing (score : List Char → ℝ) (ct : List Char)
    (temperature coolingRate : ℝ) (iterations : ℕ) (initKey : List ℕ)
    (saPairs : ℕ → ℕ × ℕ) (saRand : ℕ → ℝ) : Except String (List ℕ × List Char) := do
  let text0 ← columnar_decrypt ct initKey
  let stF ← saLoop score ct coolingRate saPairs saRand iterations
    ⟨initKey, score text0, initKey, text0, score text0, temperature, 0, 0⟩
  pure (stF.bestKey, stF.bestText)

/-- Models `PermutationBreaker.break_cipher`: exhaustive search for
`key_length ≤ 8` (the untested `key_length` goes straight into the search —
there is no validation), twenty independent annealing runs otherwise, keeping
the strict-max-scoring candidate. -/
noncomputable def perm_break_cipher (score : List Char → ℝ) (ciphertext : List Char)
    (keyLength : ℤ) (initKeys : ℕ → List ℕ) (saPairs : ℕ → ℕ → ℕ × ℕ)
    (saRand : ℕ → ℕ → ℝ) :
    Except String (Option (List Char) × Option (List ℕ)) :=
  if keyLength ≤ 8 then do
    let bk ← bruteForce score ciphertext keyLength.toNat
    pure (bk.2, bk.1)
  else do
    let st ← (List.range 20).foldlM
      (fun (st : Option (List ℕ) × Option (List Char) × WithBot ℝ) r => do
        let kt ← simulated_annealing score ciphertext 50 (99 / 100) 100000
          (initKeys r) (saPairs r) (saRand r)
        if st.2.2 < ((score kt.2 : ℝ) : WithBot ℝ) then
          pure (some kt.1, some kt.2, ((score kt.2 : ℝ) : WithBot ℝ))
        else pure st) (none, none, ⊥)
    pure (st.2.1, st.1)

/-! ### Concrete instantiations used by the analyses below -/

/-- A concrete bigram scorer state, as constructed from a corpus with counts
`AB: 10`, `BA: 1`, `CB: 100` (total 111). -/
noncomputable def c9scorer : NgramScorer :=
  ⟨2, [("AB".toList, Real.logb 10 (10 / 111)), ("BA".toList, Real.logb 10 (1 / 111)),
    ("CB".toList, Real.logb 10 (100 / 111))], Real.logb 10 ((1 / 100) / 111)⟩

/-- A breaker over `c9scorer` with `max_iterations = 1` and classic (hard)
hill climbing. -/
noncomputable def c9breaker : SubstitutionBreaker :=
  ⟨c9scorer, defaultAnalyzer, 1, 5, false⟩

/-- The identity substitution mapping (one of the bijections `_random_mapping`
can produce). -/
def idMapping : List (Char × Char) := alphabetList.map (fun c => (c, c))

/-- A sampled-pair stream: first `('A', 'B')`, then `('A', 'C')`. -/
def c9pairs : ℕ → Char × Char := fun k => if k = 0 then ('A', 'B') else ('A', 'C')

/-- A `random.random()` stream that never accepts a worse neighbor. -/
noncomputable def c9rand : ℕ → ℝ := fun _ => 1

/-- The ranked cipher letters of the ciphertext `YXYX` under the fallback
analyzer (as computed before the frequency-only loop). -/
def c3sorted : List (Char × ℚ) :=
  sortDescByVal (calculate_char_frequencies "YXYX".toList)

/-- The starting state of `break_cipher_frequency_only` on the ciphertext
`YXYX` with the fallback analyzer: the frequency-seeded mapping, its
decryption and its evaluation score. -/
def c3state0 : FreqOnlyState :=
  ⟨create_frequency_mapping defaultAnalyzer "YXYX".toList,
   subst_decrypt (create_frequency_mapping defaultAnalyzer "YXYX".toList) "YXYX".toList,
   evaluate_mapping defaultAnalyzer "YXYX".toList
     (create_frequency_mapping defaultAnalyzer "YXYX".toList)⟩

/-- The candidate mapping of the first frequency-only iteration on `YXYX`:
the images of the two top-ranked cipher letters swapped in the seed mapping. -/
def c3swapTm : List (Char × Char) :=
  (swapMapping c3state0.bestMapping (c3sorted.getD 0 ('A', 0)).1
    (c3sorted.getD 1 ('A', 0)).1).getD []

example :
    columnar_encrypt "ATTACKATDAWN".toList [1, 3, 0, 2] =
      .ok "TAWACDATNTKA".toList := by decide

example :
    columnar_decrypt "TAWACDATNTKA".toList [1, 3, 0, 2] =
      .ok "ATTACKATDAWN".toList := by decide

example :
    (columnar_encrypt "DEFENDTHEEASTWALL".toList [2, 0, 4, 1, 3]).bind
      (fun ct => columnar_decrypt ct [2, 0, 4, 1, 3]) =
      .ok "DEFENDTHEEASTWALL".toList := by decide

/-! ### Arithmetic of the remainder-aware column accounting -/

theorem ceil_core (n q r : ℕ) (hn : 0 < n) (hr : r < n) :
    (n * q + r + n - 1) / n = if r = 0 then q else q + 1 := by
  by_cases h : r = 0
  · subst h
    rw [if_pos rfl]
    have he : n * q + 0 + n - 1 = (n - 1) + n * q := by omega
    rw [he, Nat.add_mul_div_left _ _ hn, Nat.div_eq_of_lt (by omega), Nat.zero_add]
  · rw [if_neg h]
    have hmul : n * q + n = n * (q + 1) := by ring
    have he : n * q + r + n - 1 = (r - 1) + (n * q + n) := by omega
    rw [he, hmul, Nat.add_mul_div_left _ _ hn, Nat.div_eq_of_lt (by omega), Nat.zero_add]

theorem ceilDiv_eq (L n : ℕ) (hn : 0 < n) :
    (L + n - 1) / n = if L % n = 0 then L / n else L / n + 1 := by
  have h := Nat.div_add_mod L n
  calc (L + n - 1) / n = (n * (L / n) + L % n + n - 1) / n := by rw [h]
  _ = _ := ceil_core n (L / n) (L % n) hn (Nat.mod_lt _ hn)

theorem colLengths_getD (L n col : ℕ) (hcol : col < n) :
    (colLengths L n).getD col 0 =
      if L % n ≠ 0 ∧ L % n ≤ col then (L + n - 1) / n - 1 else (L + n - 1) / n := by
  unfold colLengths
  rw [List.getD_eq_getElem?_getD, List.getElem?_map, List.getElem?_range hcol]
  rfl

/-- The decryption column length of column `col` counts exactly the rows whose
row-major index `row * n + col` is a valid plaintext index. -/
theorem colLen_iff (L n col : ℕ) (hn : 0 < n) (hcol : col < n) (row : ℕ) :
    row < (colLengths L n).getD col 0 ↔ row * n + col < L := by
  have hdm := Nat.div_add_mod L n
  have hmod : L % n < n := Nat.mod_lt _ hn
  rw [colLengths_getD L n col hcol, ceilDiv_eq L n hn]
  by_cases h0 : L % n = 0
  · rw [if_neg (by simp [h0]), if_pos h0]
    constructor
    · intro h
      have h1 : (row + 1) * n ≤ (L / n) * n := Nat.mul_le_mul_right n (by omega)
      have h2 : (row + 1) * n = row * n + n := by ring
      have h3 : (L / n) * n = n * (L / n) := Nat.mul_comm _ _
      omega
    · intro h
      by_contra hc
      push_neg at hc
      have h1 : (L / n) * n ≤ row * n := Nat.mul_le_mul_right n hc
      have h3 : (L / n) * n = n * (L / n) := Nat.mul_comm _ _
      omega
  · by_cases h1 : L % n ≤ col
    · rw [if_pos ⟨h0, h1⟩, if_neg h0]
      rw [Nat.add_sub_cancel]
      constructor
      · intro h
        have h2 : (row + 1) * n ≤ (L / n) * n := Nat.mul_le_mul_right n (by omega)
        have h3 : (row + 1) * n = row * n + n := by ring
        have h4 : (L / n) * n = n * (L / n) := Nat.mul_comm _ _
        omega
      · intro h
        by_contra hc
        push_neg at hc
        have h2 : (L / n) * n ≤ row * n := Nat.mul_le_mul_right n hc
        have h4 : (L / n) * n = n * (L / n) := Nat.mul_comm _ _
        omega
    · rw [if_neg (by tauto), if_neg h0]
      push_neg at h1
      constructor
      · intro h
        have h2 : row * n ≤ (L / n) * n := Nat.mul_le_mul_right n (by omega)
        have h4 : (L / n) * n = n * (L / n) := Nat.mul_comm _ _
        omega
      · intro h
        by_contra hc
        push_neg at hc
        have h2 : (L / n + 1) * n ≤ row * n := Nat.mul_le_mul_right n hc
        have h3 : (L / n + 1) * n = n * (L / n) + n := by ring
        omega

/-! ### Generic lemmas about `filterMap` over `range` and indexed `flatMap` -/

theorem getElem?_isSome_of_lt {α : Type} (l : List α) {i : ℕ} (h : i < l.length) :
    (l[i]?).isSome := by
  rw [List.getElem?_eq_getElem h]
  rfl

theorem filterMap_range_of_none {α : Type} (f : ℕ → Option α) (k m : ℕ) (hkm : k ≤ m)
    (hnone : ∀ i, k ≤ i → f i = none) :
    (List.range m).filterMap f = (List.range k).filterMap f := by
  obtain ⟨d, rfl⟩ : ∃ d, m = k + d := ⟨m - k, by omega⟩
  rw [List.range_add, List.filterMap_append, List.filterMap_map]
  have hnil : (List.range d).filterMap (f ∘ (k + ·)) = [] := by
    apply List.filterMap_eq_nil_iff.mpr
    intro a _
    exact hnone (k + a) (by omega)
  rw [hnil, List.append_nil]

theorem filterMap_range_length {α : Type} (f : ℕ → Option α) (k : ℕ)
    (hsome : ∀ i, i < k → (f i).isSome) :
    ((List.range k).filterMap f).length = k := by
  induction k with
  | zero => simp
  | succ k ih =>
    rw [List.range_succ, List.filterMap_append]
    obtain ⟨v, hv⟩ := Option.isSome_iff_exists.mp (hsome k (by omega))
    simp [hv, ih (fun i hi => hsome i (by omega))]

theorem filterMap_range_get {α : Type} (f : ℕ → Option α) (k j : ℕ)
    (hsome : ∀ i, i < k → (f i).isSome) (hj : j < k) :
    ((List.range k).filterMap f)[j]? = f j := by
  induction k with
  | zero => omega
  | succ k ih =>
    rw [List.range_succ, List.filterMap_append]
    have hlen : ((List.range k).filterMap f).length = k :=
      filterMap_range_length f k (fun i hi => hsome i (by omega))
    by_cases hjk : j < k
    · rw [List.getElem?_append_left (by omega)]
      exact ih (fun i hi => hsome i (by omega)) hjk
    · have hjeq : j = k := by omega
      subst hjeq
      obtain ⟨v, hv⟩ := Option.isSome_iff_exists.mp (hsome j (by omega))
      rw [List.getElem?_append_right (by omega)]
      simp [hv, hlen]

/-- Indexing the concatenation of blocks at (start of a block + offset) reads
inside that block, where the start is the sum of the lengths of the blocks
listed before its first occurrence. -/
theorem flatMap_getElem_start {α : Type} (g : ℕ → List α) (lens : List ℕ) (σ : List ℕ)
    (hlen : ∀ c ∈ σ, (g c).length = lens.getD c 0) (col : ℕ) (hcol : col ∈ σ)
    (row : ℕ) (hrow : row < lens.getD col 0) :
    (σ.flatMap g)[(((σ.takeWhile (fun c => c != col)).map (fun c => lens.getD c 0)).sum + row)]? =
      (g col)[row]? := by
  induction σ with
  | nil => cases hcol
  | cons a σ ih =>
    rw [List.flatMap_cons, List.takeWhile_cons]
    by_cases hac : a = col
    · subst hac
      have hcond : ¬((a != a) = true) := by simp
      rw [if_neg hcond]
      simp only [List.map_nil, List.sum_nil, Nat.zero_add]
      rw [List.getElem?_append_left (by rw [hlen a (by simp)]; exact hrow)]
    · have hbne : (a != col) = true := by simp [hac]
      rw [if_pos hbne]
      simp only [List.map_cons, List.sum_cons]
      have ha : (g a).length = lens.getD a 0 := hlen a (by simp)
      rw [Nat.add_assoc, List.getElem?_append_right (by omega)]
      have hidx : lens.getD a 0 + (((σ.takeWhile (fun c => c != col)).map
          (fun c => lens.getD c 0)).sum + row) - (g a).length =
          ((σ.takeWhile (fun c => c != col)).map (fun c => lens.getD c 0)).sum + row := by
        omega
      rw [hidx]
      have hcol' : col ∈ σ := by
        rcases List.mem_cons.mp hcol with h | h
        · exact absurd h.symm hac
        · exact h
      exact ih (fun c hc => hlen c (List.mem_cons_of_mem a hc)) hcol'

/-! ### Column contents: length and element access -/

theorem colContents_eq (pt : List Char) (n col : ℕ) (hn : 0 < n) (hcol : col < n) :
    colContents pt n ((pt.length + n - 1) / n) col =
      (List.range ((colLengths pt.length n).getD col 0)).filterMap
        (fun row => pt[row * n + col]?) := by
  unfold colContents
  apply filterMap_range_of_none
  · rw [colLengths_getD pt.length n col hcol]
    by_cases h : pt.length % n ≠ 0 ∧ pt.length % n ≤ col
    · rw [if_pos h]; exact Nat.sub_le _ _
    · rw [if_neg h]
  · intro i hi
    rw [List.getElem?_eq_none_iff]
    by_contra hlt
    push_neg at hlt
    have := (colLen_iff pt.length n col hn hcol i).mpr hlt
    omega

theorem colContents_length (pt : List Char) (n col : ℕ) (hn : 0 < n) (hcol : col < n) :
    (colContents pt n ((pt.length + n - 1) / n) col).length =
      (colLengths pt.length n).getD col 0 := by
  rw [colContents_eq pt n col hn hcol]
  apply filterMap_range_length
  intro i hi
  exact getElem?_isSome_of_lt pt ((colLen_iff pt.length n col hn hcol i).mp hi)

theorem colContents_get (pt : List Char) (n col row : ℕ) (hn : 0 < n) (hcol : col < n)
    (hrow : row < (colLengths pt.length n).getD col 0) :
    (colContents pt n ((pt.length + n - 1) / n) col)[row]? = pt[row * n + col]? := by
  rw [colContents_eq pt n col hn hcol]
  apply filterMap_range_get
  · intro i hi
    exact getElem?_isSome_of_lt pt ((colLen_iff pt.length n col hn hcol i).mp hi)
  · exact hrow

/-- The column lengths of the remainder-aware accounting sum to the text
length: the ciphertext slices tile the ciphertext exactly. -/
theorem sum_colLengths (L n : ℕ) (hn : 0 < n) :
    ((List.range n).map (fun c => (colLengths L n).getD c 0)).sum = L := by
  have hdm := Nat.div_add_mod L n
  have hmod : L % n < n := Nat.mod_lt _ hn
  have h1 : (List.range n).map (fun c => (colLengths L n).getD c 0)
      = (List.range n).map (fun c =>
          if L % n ≠ 0 ∧ L % n ≤ c then (L + n - 1) / n - 1 else (L + n - 1) / n) :=
    List.map_congr_left (fun c hc => colLengths_getD L n c (List.mem_range.mp hc))
  rw [h1]
  by_cases h0 : L % n = 0
  · have h2 : ∀ c ∈ List.range n,
        (if L % n ≠ 0 ∧ L % n ≤ c then (L + n - 1) / n - 1 else (L + n - 1) / n)
          = L / n := by
      intro c _
      rw [if_neg (by simp [h0]), ceilDiv_eq L n hn, if_pos h0]
    rw [List.map_congr_left h2, List.map_const', List.sum_replicate, List.length_range,
      smul_eq_mul]
    omega
  · have hsplitn : n = L % n + (n - L % n) := by omega
    have hranges : List.range n = List.range (L % n) ++ (List.range (n - L % n)).map (L % n + ·) := by
      conv_lhs => rw [hsplitn]
      exact List.range_add ..
    rw [hranges, List.map_append, List.sum_append, List.map_map]
    have h2 : ∀ c ∈ List.range (L % n),
        (if L % n ≠ 0 ∧ L % n ≤ c then (L + n - 1) / n - 1 else (L + n - 1) / n)
          = L / n + 1 := by
      intro c hc
      have := List.mem_range.mp hc
      rw [if_neg (by omega), ceilDiv_eq L n hn, if_neg h0]
    have h3 : ∀ c ∈ List.range (n - L % n),
        ((fun c => if L % n ≠ 0 ∧ L % n ≤ c then (L + n - 1) / n - 1 else (L + n - 1) / n)
          ∘ (L % n + ·)) c = L / n := by
      intro c _
      show (if L % n ≠ 0 ∧ L % n ≤ L % n + c then (L + n - 1) / n - 1 else (L + n - 1) / n)
        = L / n
      rw [if_pos ⟨h0, by omega⟩, ceilDiv_eq L n hn, if_neg h0, Nat.add_sub_cancel]
    rw [List.map_congr_left h2, List.map_congr_left h3, List.map_const', List.map_const',
      List.sum_replicate, List.sum_replicate, List.length_range, List.length_range,
      smul_eq_mul, smul_eq_mul]
    have e1 : L % n * (L / n + 1) = L % n * (L / n) + L % n := by ring
    have e2 : (n - L % n) * (L / n) = n * (L / n) - L % n * (L / n) := Nat.sub_mul n (L % n) (L / n)
    have e3 : L % n * (L / n) ≤ n * (L / n) := Nat.mul_le_mul_right _ (le_of_lt hmod)
    omega

/-- The encryption output has the same length as the (normalized) plaintext. -/
theorem encrypt_core_length (pt : List Char) (key : List ℕ) (hn : 0 < key.length) :
    (columnar_encrypt_core pt key).length = pt.length := by
  have hσ : List.Perm (sortedPositions key) (List.range key.length) :=
    List.perm_insertionSort _ _
  unfold columnar_encrypt_core
  rw [List.length_flatMap]
  have hmap : (sortedPositions key).map
        (fun c => (colContents pt key.length ((pt.length + key.length - 1) / key.length) c).length)
      = (sortedPositions key).map (fun c => (colLengths pt.length key.length).getD c 0) := by
    apply List.map_congr_left
    intro c hc
    exact colContents_length pt key.length c hn
      (List.mem_range.mp (hσ.mem_iff.mp hc))
  have hflat : List.map (List.length ∘ colContents pt key.length
        ((pt.length + key.length - 1) / key.length)) (sortedPositions key)
      = (sortedPositions key).map
        (fun c => (colContents pt key.length ((pt.length + key.length - 1) / key.length) c).length) := rfl
  rw [hflat, hmap, (hσ.map (fun c => (colLengths pt.length key.length).getD c 0)).sum_eq]
  exact sum_colLengths pt.length key.length hn

/-! ### Row-major reading of the reconstructed grid -/

theorem range_flatMap_filterMap {α : Type} (g : ℕ → Option α) (a n : ℕ) :
    (List.range a).flatMap (fun row => (List.range n).filterMap (fun col => g (row * n + col)))
      = (List.range (a * n)).filterMap g := by
  induction a with
  | zero => simp
  | succ a ih =>
    rw [List.range_succ, List.flatMap_append, ih]
    have he : (a + 1) * n = a * n + n := by ring
    rw [he, List.range_add, List.filterMap_append]
    congr 1
    rw [List.filterMap_map]
    simp only [List.flatMap_cons, List.flatMap_nil, List.append_nil]
    rfl

theorem range_filterMap_getElem {α : Type} (l : List α) (m : ℕ) :
    (List.range m).filterMap (fun i => l[i]?) = l.take m := by
  induction l generalizing m with
  | nil => simp
  | cons a l ih =>
    cases m with
    | zero => simp
    | succ m =>
      rw [List.range_succ_eq_map, List.filterMap_cons, List.filterMap_map]
      simp only [List.getElem?_cons_zero]
      have hcomp : ((fun i => (a :: l)[i]?) ∘ (· + 1)) = (fun i : ℕ => l[i]?) := by
        funext i
        simp
      rw [hcomp, ih]
      rfl

/-- Core round-trip: decrypting the encryption of any plaintext under any
nonempty key recovers the plaintext. Encryption and decryption build the same
ascending-key column order from the same key, and the remainder-aware column
lengths of the decryption match the lengths of the encryption-grid columns. -/
theorem columnar_roundtrip_core (pt : List Char) (key : List ℕ) (hn : 0 < key.length) :
    columnar_decrypt_core (columnar_encrypt_core pt key) key = pt := by
  have hσ : List.Perm (sortedPositions key) (List.range key.length) :=
    List.perm_insertionSort _ _
  have hL : (columnar_encrypt_core pt key).length = pt.length :=
    encrypt_core_length pt key hn
  unfold columnar_decrypt_core
  rw [hL]
  have hinner : ∀ row ∈ List.range ((pt.length + key.length - 1) / key.length),
      (List.range key.length).filterMap (fun col =>
        if row < (colLengths pt.length key.length).getD col 0 then
          (columnar_encrypt_core pt key)[colStart (colLengths pt.length key.length)
            (sortedPositions key) col + row]?
        else none)
      = (List.range key.length).filterMap (fun col => pt[row * key.length + col]?) := by
    intro row _
    apply List.filterMap_congr
    intro col hcolmem
    have hcol : col < key.length := List.mem_range.mp hcolmem
    by_cases hlt : row < (colLengths pt.length key.length).getD col 0
    · rw [if_pos hlt]
      have hstart := flatMap_getElem_start
        (colContents pt key.length ((pt.length + key.length - 1) / key.length))
        (colLengths pt.length key.length) (sortedPositions key)
        (fun c hc => colContents_length pt key.length c hn
          (List.mem_range.mp (hσ.mem_iff.mp hc)))
        col (hσ.mem_iff.mpr (List.mem_range.mpr hcol)) row hlt
      calc (columnar_encrypt_core pt key)[colStart (colLengths pt.length key.length)
            (sortedPositions key) col + row]?
          = (colContents pt key.length ((pt.length + key.length - 1) / key.length) col)[row]? :=
            hstart
        _ = pt[row * key.length + col]? := colContents_get pt key.length col row hn hcol hlt
    · rw [if_neg hlt]
      symm
      rw [List.getElem?_eq_none_iff]
      by_contra hc
      push_neg at hc
      exact hlt ((colLen_iff pt.length key.length col hn hcol row).mpr hc)
  rw [List.flatMap_congr hinner, range_flatMap_filterMap, range_filterMap_getElem]
  apply List.take_of_length_le
  have hdm := Nat.div_add_mod pt.length key.length
  have hmod : pt.length % key.length < key.length := Nat.mod_lt _ hn
  rw [ceilDiv_eq pt.length key.length hn]
  by_cases h0 : pt.length % key.length = 0
  · rw [if_pos h0]
    have : (pt.length / key.length) * key.length = key.length * (pt.length / key.length) :=
      Nat.mul_comm _ _
    omega
  · rw [if_neg h0]
    have : (pt.length / key.length + 1) * key.length
        = key.length * (pt.length / key.length) + key.length := by ring
    omega

/-! ### Normalization is the identity on uppercase-letter text -/

theorem upperChar_of_upper {c : Char} (h1 : 'A' ≤ c) (h2 : c ≤ 'Z') : upperChar c = c := by
  unfold upperChar
  rw [if_neg]
  rintro ⟨ha, _⟩
  have hZa : 'Z' < 'a' := by decide
  exact absurd (lt_of_lt_of_le hZa ha) (not_lt.mpr h2)

theorem map_upperChar_of_upper (s : List Char) (h : ∀ c ∈ s, 'A' ≤ c ∧ c ≤ 'Z') :
    s.map upperChar = s := by
  have : s.map upperChar = s.map id :=
    List.map_congr_left (fun c hc => upperChar_of_upper (h c hc).1 (h c hc).2)
  rw [this, List.map_id]

theorem upperNoSpaces_of_upper (s : List Char) (h : ∀ c ∈ s, 'A' ≤ c ∧ c ≤ 'Z') :
    upperNoSpaces s = s := by
  unfold upperNoSpaces
  rw [map_upperChar_of_upper s h]
  apply List.filter_eq_self.mpr
  intro c hc
  have h1 := (h c hc).1
  have hsp : ' ' < 'A' := by decide
  simp only [bne_iff_ne, ne_eq]
  intro hceq
  subst hceq
  exact absurd (lt_of_lt_of_le hsp h1) (lt_irrefl _)

theorem upperNoSpacesNewlines_of_upper (s : List Char) (h : ∀ c ∈ s, 'A' ≤ c ∧ c ≤ 'Z') :
    upperNoSpacesNewlines s = s := by
  unfold upperNoSpacesNewlines
  rw [map_upperChar_of_upper s h]
  apply List.filter_eq_self.mpr
  intro c hc
  have h1 := (h c hc).1
  have hsp : ' ' < 'A' := by decide
  have hnl : '\n' < 'A' := by decide
  have hc1 : c ≠ ' ' := fun he => absurd (lt_of_lt_of_le hsp (he ▸ h1)) (lt_irrefl _)
  have hc2 : c ≠ '\n' := fun he => absurd (lt_of_lt_of_le hnl (he ▸ h1)) (lt_irrefl _)
  simp [hc1, hc2]

theorem mem_encrypt_core (pt : List Char) (key : List ℕ) :
    ∀ c ∈ columnar_encrypt_core pt key, c ∈ pt := by
  intro c hc
  unfold columnar_encrypt_core colContents at hc
  rw [List.mem_flatMap] at hc
  obtain ⟨col, _, hcmem⟩ := hc
  rw [List.mem_filterMap] at hcmem
  obtain ⟨row, _, hrow⟩ := hcmem
  exact List.getElem?_mem hrow

/-- C1: for every transposition key that is a permutation of `{0..n-1}`
(`n ≥ 1`) and every plaintext consisting only of uppercase letters, decrypting
the columnar encryption of the plaintext with the same key returns the
plaintext — both when the length is a multiple of `n` and when it is not (the
short-column accounting case). -/
theorem C1_columnar_roundtrip (pt : List Char) (key : List ℕ)
    (hn : 0 < key.length) (hperm : List.Perm key (List.range key.length))
    (hpt : ∀ c ∈ pt, 'A' ≤ c ∧ c ≤ 'Z') :
    (columnar_encrypt pt key).bind (fun ct => columnar_decrypt ct key) =
      Except.ok pt := by
  have h1 : upperNoSpaces pt = pt := upperNoSpaces_of_upper pt hpt
  have hmem : ∀ c ∈ columnar_encrypt_core pt key, 'A' ≤ c ∧ c ≤ 'Z' :=
    fun c hc => hpt c (mem_encrypt_core pt key c hc)
  have h2 : upperNoSpacesNewlines (columnar_encrypt_core pt key) =
      columnar_encrypt_core pt key :=
    upperNoSpacesNewlines_of_upper _ hmem
  have hne : ¬ key.length = 0 := by omega
  unfold columnar_encrypt columnar_decrypt
  rw [if_neg hne, h1]
  show (if key.length = 0 then Except.error "ZeroDivisionError"
    else Except.ok (columnar_decrypt_core
      (upperNoSpacesNewlines (columnar_encrypt_core pt key)) key)) = Except.ok pt
  rw [if_neg hne, h2, columnar_roundtrip_core pt key hn]

/-- Witness for C1 at the key `[2, 0, 1]` and the ten-letter plaintext
`HELLOWORLD` (length not a multiple of 3, so the short-column accounting is
exercised). -/
theorem C1_columnar_roundtrip_witness :
    0 < ([2, 0, 1] : List ℕ).length ∧
      List.Perm ([2, 0, 1] : List ℕ) (List.range ([2, 0, 1] : List ℕ).length) ∧
      (∀ c ∈ "HELLOWORLD".toList, 'A' ≤ c ∧ c ≤ 'Z') ∧
      (columnar_encrypt "HELLOWORLD".toList [2, 0, 1]).bind
        (fun ct => columnar_decrypt ct [2, 0, 1]) = Except.ok "HELLOWORLD".toList :=
  ⟨by decide, by decide, by decide,
    C1_columnar_roundtrip "HELLOWORLD".toList [2, 0, 1] (by decide) (by decide) (by decide)⟩

/-! ### C7: the index of coincidence -/

/-- The sum of `count · (count − 1)` over the distinct elements is at most
`length · (length − 1)`. -/
theorem sum_count_mul_pred_le (l : List Char) :
    ((l.dedup.map (fun c => l.count c * (l.count c - 1))).sum : ℕ) ≤
      l.length * (l.length - 1) := by
  have h1 : ∀ c ∈ l.dedup, l.count c * (l.count c - 1) ≤ l.count c * (l.length - 1) := by
    intro c _
    exact Nat.mul_le_mul_left _ (Nat.sub_le_sub_right (List.count_le_length c l) 1)
  calc ((l.dedup.map (fun c => l.count c * (l.count c - 1))).sum : ℕ)
      ≤ (l.dedup.map (fun c => l.count c * (l.length - 1))).sum := List.sum_le_sum h1
    _ = (l.dedup.map (fun c => l.count c)).sum * (l.length - 1) := by
        rw [← List.sum_map_mul_right]
    _ = l.length * (l.length - 1) := by rw [List.sum_map_count_dedup_eq_length]

/-- C7 (amended): `calculate_index_of_coincidence` returns
`Σ nᵢ(nᵢ−1) / (N(N−1))` over the letter counts, returns 0 when `N < 2`, and
always lies in the closed interval `[0, 1]` — the right endpoint is attained
(see the counterexample), so `[0, 1)` of the original claim is wrong. -/
theorem C7_ic_formula_and_bounds (text : List Char) :
    ((lettersOnly text).length < 2 → calculate_index_of_coincidence text = 0) ∧
    (2 ≤ (lettersOnly text).length → calculate_index_of_coincidence text =
      ((((lettersOnly text).dedup.map
        (fun c => (lettersOnly text).count c * ((lettersOnly text).count c - 1))).sum : ℕ) : ℚ)
        / ((((lettersOnly text).length * ((lettersOnly text).length - 1)) : ℕ) : ℚ)) ∧
    0 ≤ calculate_index_of_coincidence text ∧
    calculate_index_of_coincidence text ≤ 1 := by
  unfold calculate_index_of_coincidence
  by_cases h : (lettersOnly text).length < 2
  · rw [if_pos h]
    exact ⟨fun _ => rfl, fun h2 => absurd h2 (by omega), le_refl 0, by norm_num⟩
  · rw [if_neg h]
    push_neg at h
    have hden : (0 : ℚ) <
        ((((lettersOnly text).length * ((lettersOnly text).length - 1)) : ℕ) : ℚ) := by
      have : 1 * 1 ≤ (lettersOnly text).length * ((lettersOnly text).length - 1) :=
        Nat.mul_le_mul (by omega) (by omega)
      exact_mod_cast by omega
    refine ⟨fun h2 => absurd h2 (by omega), fun _ => rfl, ?_, ?_⟩
    · apply div_nonneg _ (le_of_lt hden)
      exact_mod_cast Nat.zero_le _
    · rw [div_le_one hden]
      exact_mod_cast sum_count_mul_pred_le (lettersOnly text)

section RatComputation

attribute [local semireducible] Rat.add Rat.mul Rat.sub Rat.inv Rat.ofScientific

/-- C7 witness: a text with repeated and distinct letters, exercising both the
`N ≥ 2` formula clause and the bounds. -/
theorem C7_ic_formula_and_bounds_witness :
    2 ≤ (lettersOnly "HELLO WORLD".toList).length ∧
      calculate_index_of_coincidence "HELLO WORLD".toList = 4 / 45 :=
  ⟨by decide, by
    have h := (C7_ic_formula_and_bounds "HELLO WORLD".toList).2.1 (by decide)
    rw [h]
    decide⟩

/-- C7 counterexample: the text `AA` has index of coincidence exactly 1, so
the returned value does not always lie in the half-open interval `[0, 1)`. -/
theorem C7_ic_not_lt_one_counterexample :
    calculate_index_of_coincidence "AA".toList = 1 ∧
      ¬ calculate_index_of_coincidence "AA".toList < 1 := by
  decide

end RatComputation

/-! ### C10: the substitution decryption is a frame on non-letters -/

/-- C10: `_decrypt` preserves length; every position whose uppercased input
character is non-alphabetic carries that character unchanged, and alphabetic
characters are replaced by their mapping image (defaulting to themselves). -/
theorem C10_decrypt_frame (mapping : List (Char × Char)) (s : List Char) :
    (subst_decrypt mapping s).length = s.length ∧
    ∀ i (h : i < s.length),
      (¬ pyIsAlpha (upperChar (s.get ⟨i, h⟩)) = true →
        (subst_decrypt mapping s)[i]? = some (upperChar (s.get ⟨i, h⟩))) ∧
      (pyIsAlpha (upperChar (s.get ⟨i, h⟩)) = true →
        (subst_decrypt mapping s)[i]? =
          some ((dictGet? mapping (upperChar (s.get ⟨i, h⟩))).getD
            (upperChar (s.get ⟨i, h⟩)))) := by
  constructor
  · simp [subst_decrypt]
  · intro i h
    have hmap : (subst_decrypt mapping s)[i]? =
        some (if pyIsAlpha (upperChar (s.get ⟨i, h⟩)) then
          (dictGet? mapping (upperChar (s.get ⟨i, h⟩))).getD (upperChar (s.get ⟨i, h⟩))
        else upperChar (s.get ⟨i, h⟩)) := by
      unfold subst_decrypt
      rw [List.getElem?_map, List.getElem?_map, List.getElem?_eq_getElem h]
      rfl
    constructor
    · intro hna
      rw [hmap, if_neg hna]
    · intro ha
      rw [hmap, if_pos ha]

/-! ### C4: the n-gram score is the sum of windowed table lookups -/

theorem exceptBind_ok {ε α β : Type} (a : α) (f : α → Except ε β) :
    ((Except.ok a : Except ε α) >>= f) = f a := rfl

theorem exceptBind_error {ε α β : Type} (e : ε) (f : α → Except ε β) :
    ((Except.error e : Except ε α) >>= f) = Except.error e := rfl

theorem foldl_add_eq_sum (f : ℕ → ℝ) (l : List ℕ) (init : ℝ) :
    l.foldl (fun acc i => acc + f i) init = init + (l.map f).sum := by
  induction l generalizing init with
  | nil => simp
  | cons a l ih => simp [ih, add_assoc]

/-- C4: `NgramScorer.score` equals the sum, over every overlapping length-`n`
window of the uppercased, space- and newline-stripped text, of the table's
log-probability for the window or the floor when the window is absent; and
scoring the same text twice yields identical results. -/
theorem C4_ngram_score_is_window_sum (sc : NgramScorer) (text : List Char) :
    ngramScore sc text =
      (∑ i ∈ Finset.range ((upperNoSpacesNewlines text).length + 1 - sc.n),
        (dictGet? sc.ngrams (((upperNoSpacesNewlines text).drop i).take sc.n)).getD sc.floor) ∧
    ngramScore sc text = ngramScore sc text := by
  refine ⟨?_, rfl⟩
  unfold ngramScore
  have hfun : ∀ (acc : ℝ) (i : ℕ),
      (acc + match dictGet? sc.ngrams (((upperNoSpacesNewlines text).drop i).take sc.n) with
        | some v => v
        | none => sc.floor) =
      acc + (dictGet? sc.ngrams (((upperNoSpacesNewlines text).drop i).take sc.n)).getD sc.floor := by
    intro acc i
    cases dictGet? sc.ngrams (((upperNoSpacesNewlines text).drop i).take sc.n) <;> rfl
  simp only [hfun]
  rw [foldl_add_eq_sum, zero_add]
  rfl

/-! ### C5: corpus loading and malformed records -/

theorem foldlM_loader_filter (lines : List (List Char)) (st : List (List Char × ℤ) × ℤ) :
    lines.foldlM (fun (st : List (List Char × ℤ) × ℤ) line =>
      if (splitWs line).length = 2 then
        match pyInt? ((splitWs line).getD 1 []) with
        | some k => Except.ok (dictSet st.1 ((splitWs line).getD 0 []) k, st.2 + k)
        | none => Except.error (ε := String) "ValueError"
      else Except.ok st) st =
    (lines.filter (fun l => (splitWs l).length = 2)).foldlM
      (fun (st : List (List Char × ℤ) × ℤ) line =>
      if (splitWs line).length = 2 then
        match pyInt? ((splitWs line).getD 1 []) with
        | some k => Except.ok (dictSet st.1 ((splitWs line).getD 0 []) k, st.2 + k)
        | none => Except.error "ValueError"
      else Except.ok st) st := by
  induction lines generalizing st with
  | nil => rfl
  | cons l rest ih =>
    by_cases h : (splitWs l).length = 2
    · rw [List.filter_cons_of_pos (by simp [h]), List.foldlM_cons, List.foldlM_cons,
        if_pos h]
      cases pyInt? ((splitWs l).getD 1 []) with
      | none => rfl
      | some k =>
        show Except.ok _ >>= _ = Except.ok _ >>= _
        show _ = _
        exact ih _
    · rw [List.filter_cons_of_neg (by simp [h]), List.foldlM_cons, if_neg h]
      simpa using ih st

theorem loader_ok_of_all_parse (lines : List (List Char)) (st : List (List Char × ℤ) × ℤ)
    (h : ∀ l ∈ lines, (splitWs l).length = 2 → (pyInt? ((splitWs l).getD 1 [])).isSome) :
    ∃ r, lines.foldlM (fun (st : List (List Char × ℤ) × ℤ) line =>
      if (splitWs line).length = 2 then
        match pyInt? ((splitWs line).getD 1 []) with
        | some k => Except.ok (dictSet st.1 ((splitWs line).getD 0 []) k, st.2 + k)
        | none => Except.error (ε := String) "ValueError"
      else Except.ok st) st = Except.ok r := by
  induction lines generalizing st with
  | nil => exact ⟨st, rfl⟩
  | cons l rest ih =>
    rw [List.foldlM_cons]
    by_cases hl : (splitWs l).length = 2
    · obtain ⟨k, hk⟩ := Option.isSome_iff_exists.mp (h l (by simp) hl)
      rw [if_pos hl, hk]
      exact ih _ (fun x hx => h x (by simp [hx]))
    · rw [if_neg hl]
      exact ih st (fun x hx => h x (by simp [hx]))

/-- C5 (amended): a line that does not split into exactly two tokens is
skipped individually — the load result is that of the two-token lines alone —
and a corpus whose two-token lines all carry integer counts loads without
failing. (A two-token line with a non-integer count, by contrast, aborts the
whole load with ValueError; see the counterexample.) -/
theorem C5_loader_skips_wrong_token_lines (lines : List (List Char)) :
    loadNgramCounts lines =
      loadNgramCounts (lines.filter (fun l => (splitWs l).length = 2)) ∧
    ((∀ l ∈ lines, (splitWs l).length = 2 → (pyInt? ((splitWs l).getD 1 [])).isSome) →
      ∃ r, loadNgramCounts lines = Except.ok r) := by
  constructor
  · exact foldlM_loader_filter lines ([], 0)
  · intro h
    exact loader_ok_of_all_parse lines ([], 0) h

/-- Witness for C5 on a corpus mixing well-formed lines with a one-token line
and a three-token line: the malformed lines are skipped and the load
succeeds with exactly the well-formed records. -/
theorem C5_loader_skips_wrong_token_lines_witness :
    (∀ l ∈ ["ABCD 12".toList, "JUNK".toList, "A B C".toList, "EFGH 3".toList],
      (splitWs l).length = 2 → (pyInt? ((splitWs l).getD 1 [])).isSome) ∧
    loadNgramCounts ["ABCD 12".toList, "JUNK".toList, "A B C".toList, "EFGH 3".toList] =
      loadNgramCounts (["ABCD 12".toList, "JUNK".toList, "A B C".toList,
        "EFGH 3".toList].filter (fun l => (splitWs l).length = 2)) ∧
    (∃ r, loadNgramCounts ["ABCD 12".toList, "JUNK".toList, "A B C".toList,
      "EFGH 3".toList] = Except.ok r) :=
  ⟨by decide,
    (C5_loader_skips_wrong_token_lines
      ["ABCD 12".toList, "JUNK".toList, "A B C".toList, "EFGH 3".toList]).1,
    (C5_loader_skips_wrong_token_lines
      ["ABCD 12".toList, "JUNK".toList, "A B C".toList, "EFGH 3".toList]).2 (by decide)⟩

/-- C5 counterexample: a corpus whose second line has exactly two tokens but a
non-integer count makes the whole load fail with ValueError — the malformed
record is not skipped individually. -/
theorem C5_nonint_count_aborts_counterexample :
    loadNgramCounts ["ABCD 12".toList, "EFGH xy".toList, "IJKL 5".toList] =
      Except.error "ValueError" := by
  decide

/-! ### C6: no key-length validation in the permutation breaker -/

theorem foldlM_ok_of_all_ok {σ α : Type} (f : σ → α → Except String σ) (l : List α)
    (h : ∀ s a, a ∈ l → ∃ s', f s a = .ok s') :
    ∀ s, ∃ s', l.foldlM f s = .ok s' := by
  induction l with
  | nil => exact fun s => ⟨s, rfl⟩
  | cons a rest ih =>
    intro s
    obtain ⟨s1, hs1⟩ := h s a (by simp)
    rw [List.foldlM_cons, hs1]
    obtain ⟨s', hs'⟩ := ih (fun s2 b hb => h s2 b (by simp [hb])) s1
    exact ⟨s', by simpa using hs'⟩

/-- C6 (amended, error part): a requested key length ≤ 0 is not rejected
before the search; `break_cipher` enters the exhaustive-search branch, whose
single empty candidate key makes `_columnar_decrypt` divide by zero. -/
theorem C6_nonpositive_key_length_divzero (score : List Char → ℝ) (ct : List Char)
    (keyLength : ℤ) (initKeys : ℕ → List ℕ) (saPairs : ℕ → ℕ → ℕ × ℕ)
    (saRand : ℕ → ℕ → ℝ) (hk : keyLength ≤ 0) :
    perm_break_cipher score ct keyLength initKeys saPairs saRand =
      Except.error "ZeroDivisionError" := by
  unfold perm_break_cipher
  rw [if_pos (by omega)]
  have htoNat : keyLength.toNat = 0 := Int.toNat_of_nonpos hk
  rw [htoNat]
  unfold bruteForce
  rfl

/-- Witness for C6's amended error part at the concrete request
`key_length = 0` on the ciphertext `"A"`. -/
theorem C6_nonpositive_key_length_divzero_witness :
    (0 : ℤ) ≤ 0 ∧
      perm_break_cipher (fun _ => (0 : ℝ)) "A".toList 0 (fun _ => [])
        (fun _ _ => (0, 0)) (fun _ _ => (0 : ℝ)) = Except.error "ZeroDivisionError" :=
  ⟨le_refl 0,
    C6_nonpositive_key_length_divzero (fun _ => (0 : ℝ)) "A".toList 0 (fun _ => [])
      (fun _ _ => (0, 0)) (fun _ _ => (0 : ℝ)) (le_refl 0)⟩

/-- C6 counterexample: a key length strictly greater than the ciphertext
length (5 > 3, within the exhaustive-search branch) is not rejected: the
search runs to completion and returns a candidate. -/
theorem bruteForce_ok (score : List Char → ℝ) (ct : List Char) (kl : ℕ) (hk : 0 < kl) :
    ∃ r, bruteForce score ct kl = Except.ok r := by
  unfold bruteForce
  have hstep : ∀ (st : Option (List ℕ) × Option (List Char) × WithBot ℝ)
      (perm : List ℕ), perm ∈ List.permutations (List.range kl) →
      ∃ st', (columnar_decrypt ct perm >>= (fun text =>
        if st.2.2 < ((score text : ℝ) : WithBot ℝ) then
          pure (some perm, some text, ((score text : ℝ) : WithBot ℝ))
        else pure st)) = Except.ok st' := by
    intro st perm hperm
    have hlen : perm.length = kl := by
      have h2 := (List.mem_permutations.mp hperm).length_eq
      simpa using h2
    have hdec : columnar_decrypt ct perm =
        .ok (columnar_decrypt_core (upperNoSpacesNewlines ct) perm) := by
      unfold columnar_decrypt
      rw [if_neg (by omega)]
    rw [hdec, exceptBind_ok]
    by_cases hlt : st.2.2 < ((score (columnar_decrypt_core (upperNoSpacesNewlines ct) perm) : ℝ) :
        WithBot ℝ)
    · rw [if_pos hlt]; exact ⟨_, rfl⟩
    · rw [if_neg hlt]; exact ⟨_, rfl⟩
  obtain ⟨s', hs'⟩ := foldlM_ok_of_all_ok _ _ hstep (none, none, ⊥)
  rw [hs']
  exact ⟨_, rfl⟩

/-- C6 counterexample: a key length strictly greater than the ciphertext
length (5 > 3, in the exhaustive-search branch) is not rejected: the search
runs to completion and returns a candidate instead of signalling a caller
error. -/
theorem C6_overlong_key_length_not_rejected_counterexample :
    ∃ r, perm_break_cipher (fun _ => (0 : ℝ)) "ABC".toList 5 (fun _ => [])
      (fun _ _ => (0, 0)) (fun _ _ => (0 : ℝ)) = Except.ok r := by
  unfold perm_break_cipher
  rw [if_pos (by omega)]
  obtain ⟨r, hr⟩ := bruteForce_ok (fun _ => (0 : ℝ)) "ABC".toList (5 : ℤ).toNat (by decide)
  rw [hr]
  exact ⟨_, rfl⟩

/-- C10 witness at the mapping `{A ↦ Z}` and the input `"aB1 c"`: length is
preserved, the digit and the space stay in place, and both a mapped and an
unmapped letter substitute as specified. -/
theorem C10_decrypt_frame_witness :
    (subst_decrypt [('A', 'Z')] "aB1 c".toList).length = "aB1 c".toList.length ∧
      (subst_decrypt [('A', 'Z')] "aB1 c".toList)[2]? = some '1' ∧
      (subst_decrypt [('A', 'Z')] "aB1 c".toList)[3]? = some ' ' ∧
      (subst_decrypt [('A', 'Z')] "aB1 c".toList)[0]? = some 'Z' ∧
      (subst_decrypt [('A', 'Z')] "aB1 c".toList)[1]? = some 'B' := by
  refine ⟨(C10_decrypt_frame [('A', 'Z')] "aB1 c".toList).1, ?_, ?_, ?_, ?_⟩
  · have h := ((C10_decrypt_frame [('A', 'Z')] "aB1 c".toList).2 2 (by decide)).1 (by decide)
    simpa using h
  · have h := ((C10_decrypt_frame [('A', 'Z')] "aB1 c".toList).2 3 (by decide)).1 (by decide)
    simpa using h
  · have h := ((C10_decrypt_frame [('A', 'Z')] "aB1 c".toList).2 0 (by decide)).2 (by decide)
    simpa using h
  · have h := ((C10_decrypt_frame [('A', 'Z')] "aB1 c".toList).2 1 (by decide)).2 (by decide)
    simpa using h

/-! ### C2: break_cipher on an empty or letterless ciphertext -/

theorem hillStep_empty_mapping (B : SubstitutionBreaker) (ct : List Char) (useSoft : Bool)
    (p0 cr : ℝ) (pairs : ℕ → Char × Char) (rand : ℕ → ℝ) (st : HillState)
    (h : st.currentMapping = []) :
    hillStep B ct useSoft p0 cr pairs rand st = .error "KeyError" := by
  unfold hillStep
  rw [h]
  rfl

theorem hillLoop_empty_mapping (B : SubstitutionBreaker) (ct : List Char) (useSoft : Bool)
    (p0 cr : ℝ) (pairs : ℕ → Char × Char) (rand : ℕ → ℝ) (k : ℕ) (st : HillState)
    (hk : 0 < k) (h : st.currentMapping = []) :
    hillLoop B ct useSoft p0 cr pairs rand k st = .error "KeyError" := by
  cases k with
  | zero => omega
  | succ k =>
    show (hillStep B ct useSoft p0 cr pairs rand st >>= fun st' =>
      hillLoop B ct useSoft p0 cr pairs rand k st') = _
    rw [hillStep_empty_mapping B ct useSoft p0 cr pairs rand st h, exceptBind_error]

/-- On a ciphertext with no alphabetic characters, the frequency-based
initial mapping is the empty dict. -/
theorem create_frequency_mapping_no_letters (fa : FrequencyAnalyzer) (ct : List Char)
    (hct : lettersOnly ct = []) : create_frequency_mapping fa ct = [] := by
  have hfreq : calculate_char_frequencies ct = [] := by
    unfold calculate_char_frequencies
    rw [if_pos hct]
  unfold create_frequency_mapping
  rw [if_pos hfreq]

/-- With the default hill-climbing mode (frequency-seeded first attempt) and a
positive iteration budget, a ciphertext without letters makes `break_cipher`
raise KeyError at the very first mapping swap. -/
theorem sub_break_no_letters_error (B : SubstitutionBreaker) (ct : List Char)
    (hct : lettersOnly ct = []) (hmax : 0 < B.maxIterations)
    (idxPairs : ℕ → ℕ × ℕ) (shuffles : ℕ → List Char)
    (pairs : ℕ → ℕ → Char × Char) (rand : ℕ → ℕ → ℝ) :
    sub_break_cipher B ct false true idxPairs shuffles pairs rand =
      Except.error "KeyError" := by
  have hhc : hill_climb B ct (create_frequency_mapping B.analyzer ct)
      B.useSoftClimbing (3 / 10) (999 / 1000) (pairs 0) (rand 0) =
      Except.error "KeyError" := by
    unfold hill_climb
    rw [hillLoop_empty_mapping B ct B.useSoftClimbing (3 / 10) (999 / 1000) (pairs 0)
      (rand 0) B.maxIterations _ hmax
      (by rw [create_frequency_mapping_no_letters B.analyzer ct hct]; rfl)]
    rfl
  unfold sub_break_cipher
  simp only [Bool.false_eq_true, if_false, if_true, hhc, exceptBind_error]

/-- C2 (amended): for the empty ciphertext — and any ciphertext containing no
alphabetic characters — `break_cipher` in its default hill-climbing mode does
NOT return normally: the frequency-seeded initial mapping is empty, so the
first `_swap_mapping` lookup raises KeyError (for every random stream and any
positive iteration budget). -/
theorem C2_no_letters_raises_keyerror (B : SubstitutionBreaker) (ct : List Char)
    (hct : lettersOnly ct = []) (hmax : 0 < B.maxIterations)
    (idxPairs : ℕ → ℕ × ℕ) (shuffles : ℕ → List Char)
    (pairs : ℕ → ℕ → Char × Char) (rand : ℕ → ℕ → ℝ) :
    sub_break_cipher B ct false true idxPairs shuffles pairs rand =
      Except.error "KeyError" :=
  sub_break_no_letters_error B ct hct hmax idxPairs shuffles pairs rand

/-- Witness for C2 (amended) at the default configuration
(`max_iterations = 10000`, five restarts, soft climbing) on the empty
ciphertext. -/
theorem C2_no_letters_raises_keyerror_witness :
    lettersOnly ([] : List Char) = [] ∧
      0 < (10000 : ℕ) ∧
      sub_break_cipher ⟨⟨4, [], 0⟩, defaultAnalyzer, 10000, 5, true⟩ [] false true
        (fun _ => (0, 1)) (fun _ => alphabetList) (fun _ _ => ('A', 'B')) (fun _ _ => 0) =
        Except.error "KeyError" :=
  ⟨rfl, by decide,
    C2_no_letters_raises_keyerror ⟨⟨4, [], 0⟩, defaultAnalyzer, 10000, 5, true⟩ [] rfl
      (by decide) (fun _ => (0, 1)) (fun _ => alphabetList) (fun _ _ => ('A', 'B'))
      (fun _ _ => 0)⟩

/-- C2 counterexample: at the default configuration, `break_cipher` on the
empty ciphertext raises KeyError instead of returning normally with an empty
plaintext. -/
theorem C2_empty_ciphertext_crash_counterexample :
    sub_break_cipher ⟨⟨4, [], 0⟩, defaultAnalyzer, 10000, 5, true⟩ [] false true
      (fun _ => (0, 1)) (fun _ => alphabetList) (fun _ _ => ('A', 'C')) (fun _ _ => 0) =
      Except.error "KeyError" :=
  sub_break_no_letters_error ⟨⟨4, [], 0⟩, defaultAnalyzer, 10000, 5, true⟩ [] rfl
    (by decide) (fun _ => (0, 1)) (fun _ => alphabetList) (fun _ _ => ('A', 'C'))
    (fun _ _ => 0)

/-! ### C9: the tracked best score under hill climbing -/

theorem hillMove_best_mono (useSoft : Bool) (cr : ℝ) (rand : ℕ → ℝ)
    (nm : List (Char × Char)) (nt : List Char) (ns : ℝ) (st : HillState) :
    st.bestScore ≤ (hillMove useSoft cr rand nm nt ns st).bestScore := by
  unfold hillMove
  split_ifs with h1 h2 h3 h4
  · exact le_of_lt h2
  · exact le_refl _
  · exact le_refl _
  · exact le_refl _
  · exact le_refl _

theorem hillStep_best_mono (B : SubstitutionBreaker) (ct : List Char) (useSoft : Bool)
    (p0 cr : ℝ) (pairs : ℕ → Char × Char) (rand : ℕ → ℝ) (st st' : HillState)
    (h : hillStep B ct useSoft p0 cr pairs rand st = .ok st') :
    st.bestScore ≤ st'.bestScore := by
  unfold hillStep at h
  split at h
  · cases h
  · rename_i nm hsw
    split at h
    · split at h
      · cases h
      · cases h
        exact hillMove_best_mono useSoft cr rand nm (subst_decrypt nm ct)
          (ngramScore B.scorer (subst_decrypt nm ct)) st
    · cases h
      exact hillMove_best_mono useSoft cr rand nm (subst_decrypt nm ct)
        (ngramScore B.scorer (subst_decrypt nm ct)) st

/-- C9 (amended): across every hill-climbing run the tracked best score is
monotone non-decreasing — every successfully completed sequence of iterations
ends with a best score at least the starting one. (The returned best is NOT an
upper bound on all visited states: the plateau-escape forced swap moves the
current position without updating the best, see the counterexample.) -/
theorem C9_best_score_monotone (B : SubstitutionBreaker) (ct : List Char) (useSoft : Bool)
    (p0 cr : ℝ) (pairs : ℕ → Char × Char) (rand : ℕ → ℝ) (k : ℕ) (st st' : HillState)
    (h : hillLoop B ct useSoft p0 cr pairs rand k st = .ok st') :
    st.bestScore ≤ st'.bestScore := by
  induction k generalizing st with
  | zero =>
    cases h
    exact le_refl _
  | succ k ih =>
    have hunf : hillLoop B ct useSoft p0 cr pairs rand (k + 1) st =
        (hillStep B ct useSoft p0 cr pairs rand st >>= fun st1 =>
          hillLoop B ct useSoft p0 cr pairs rand k st1) := rfl
    rw [hunf] at h
    cases hstep : hillStep B ct useSoft p0 cr pairs rand st with
    | error e => rw [hstep, exceptBind_error] at h; cases h
    | ok st1 =>
      rw [hstep, exceptBind_ok] at h
      exact le_trans (hillStep_best_mono B ct useSoft p0 cr pairs rand st st1 hstep) (ih st1 h)

theorem hillStep_some (B : SubstitutionBreaker) (ct : List Char) (useSoft : Bool)
    (p0 cr : ℝ) (pairs : ℕ → Char × Char) (rand : ℕ → ℝ) (st : HillState)
    (nm : List (Char × Char))
    (h1 : swapMapping st.currentMapping (pairs st.pairIdx).1 (pairs st.pairIdx).2 = some nm) :
    hillStep B ct useSoft p0 cr pairs rand st =
      (if B.maxIterations / 10 <
          (hillMove useSoft cr rand nm (subst_decrypt nm ct)
            (ngramScore B.scorer (subst_decrypt nm ct)) st).noImprovement then
        match swapMapping
            (hillMove useSoft cr rand nm (subst_decrypt nm ct)
              (ngramScore B.scorer (subst_decrypt nm ct)) st).currentMapping
            (pairs (hillMove useSoft cr rand nm (subst_decrypt nm ct)
              (ngramScore B.scorer (subst_decrypt nm ct)) st).pairIdx).1
            (pairs (hillMove useSoft cr rand nm (subst_decrypt nm ct)
              (ngramScore B.scorer (subst_decrypt nm ct)) st).pairIdx).2 with
        | none => .error "KeyError"
        | some jumpedMapping =>
          .ok { hillMove useSoft cr rand nm (subst_decrypt nm ct)
                  (ngramScore B.scorer (subst_decrypt nm ct)) st with
                  currentMapping := jumpedMapping
                  currentText := subst_decrypt jumpedMapping ct
                  currentScore := ngramScore B.scorer (subst_decrypt jumpedMapping ct)
                  noImprovement := 0
                  acceptanceProb := if useSoft then p0 * (1 / 2) else
                    (hillMove useSoft cr rand nm (subst_decrypt nm ct)
                      (ngramScore B.scorer (subst_decrypt nm ct)) st).acceptanceProb
                  pairIdx := (hillMove useSoft cr rand nm (subst_decrypt nm ct)
                    (ngramScore B.scorer (subst_decrypt nm ct)) st).pairIdx + 1 }
      else .ok (hillMove useSoft cr rand nm (subst_decrypt nm ct)
        (ngramScore B.scorer (subst_decrypt nm ct)) st)) := by
  unfold hillStep
  rw [h1]

theorem hillMove_reject (cr : ℝ) (rand : ℕ → ℝ) (nm : List (Char × Char))
    (nt : List Char) (ns : ℝ) (st : HillState) (h : ¬(0 < ns - st.currentScore)) :
    hillMove false cr rand nm nt ns st =
      { st with noImprovement := st.noImprovement + 1, pairIdx := st.pairIdx + 1 } := by
  unfold hillMove
  rw [if_neg h]
  simp

/-- In classic (hard) hill climbing, a rejected neighbor followed by a tripped
plateau counter performs the forced swap: the current position moves to the
jumped state without the best being updated. -/
theorem hillStep_reject_then_jump (B : SubstitutionBreaker) (ct : List Char)
    (p0 cr : ℝ) (pairs : ℕ → Char × Char) (rand : ℕ → ℝ) (st : HillState)
    (nm jm : List (Char × Char))
    (h1 : swapMapping st.currentMapping (pairs st.pairIdx).1 (pairs st.pairIdx).2 = some nm)
    (h2 : ¬(0 < ngramScore B.scorer (subst_decrypt nm ct) - st.currentScore))
    (h3 : B.maxIterations / 10 < st.noImprovement + 1)
    (h4 : swapMapping st.currentMapping (pairs (st.pairIdx + 1)).1
      (pairs (st.pairIdx + 1)).2 = some jm) :
    hillStep B ct false p0 cr pairs rand st =
      .ok { st with
        currentMapping := jm
        currentText := subst_decrypt jm ct
        currentScore := ngramScore B.scorer (subst_decrypt jm ct)
        noImprovement := 0
        pairIdx := st.pairIdx + 2 } := by
  rw [hillStep_some B ct false p0 cr pairs rand st nm h1,
    hillMove_reject cr rand nm (subst_decrypt nm ct)
      (ngramScore B.scorer (subst_decrypt nm ct)) st h2]
  dsimp only
  rw [if_pos h3, h4]
  simp [Nat.add_assoc]

/-- C9 counterexample: with a bigram table rating `CB` above `AB` above `BA`,
one hard-climbing iteration from the identity mapping on ciphertext `AB`
rejects the sampled swap `(A,B)`, trips the plateau counter
(`max_iterations // 10 = 0`), and force-jumps to the swap `(A,C)` whose
decryption `CB` scores strictly above the returned best score — so the
returned best is NOT an upper bound on the scores of the states the current
position visits. -/
theorem C9_plateau_escape_exceeds_best_counterexample :
    ∃ stF,
      hillLoop c9breaker "AB".toList false (3 / 10) (999 / 1000) c9pairs c9rand
          c9breaker.maxIterations (hillInit c9breaker "AB".toList idMapping false (3 / 10))
        = Except.ok stF ∧
      hill_climb c9breaker "AB".toList idMapping false (3 / 10) (999 / 1000) c9pairs c9rand
        = Except.ok (stF.bestMapping, stF.bestText, stF.bestScore) ∧
      stF.bestScore < ngramScore c9breaker.scorer stF.currentText := by
  have hsAB : ngramScore c9scorer "AB".toList = Real.logb 10 (10 / 111) := by
    show (0 : ℝ) + Real.logb 10 (10 / 111) = Real.logb 10 (10 / 111)
    exact zero_add _
  have hsBA : ngramScore c9scorer "BA".toList = Real.logb 10 (1 / 111) := by
    show (0 : ℝ) + Real.logb 10 (1 / 111) = Real.logb 10 (1 / 111)
    exact zero_add _
  have hsCB : ngramScore c9scorer "CB".toList = Real.logb 10 (100 / 111) := by
    show (0 : ℝ) + Real.logb 10 (100 / 111) = Real.logb 10 (100 / 111)
    exact zero_add _
  have hd0 : subst_decrypt idMapping "AB".toList = "AB".toList := by decide
  have hd1 : subst_decrypt (dictSet (dictSet idMapping 'A' 'B') 'B' 'A') "AB".toList =
      "BA".toList := by decide
  have hd2 : subst_decrypt (dictSet (dictSet idMapping 'A' 'C') 'C' 'A') "AB".toList =
      "CB".toList := by decide
  have hlt1 : Real.logb 10 (1 / 111) < Real.logb 10 (10 / 111) :=
    Real.logb_lt_logb (by norm_num) (by norm_num) (by norm_num)
  have hlt2 : Real.logb 10 (10 / 111) < Real.logb 10 (100 / 111) :=
    Real.logb_lt_logb (by norm_num) (by norm_num) (by norm_num)
  have hstep : hillStep c9breaker "AB".toList false (3 / 10) (999 / 1000) c9pairs c9rand
      (hillInit c9breaker "AB".toList idMapping false (3 / 10)) =
      .ok { hillInit c9breaker "AB".toList idMapping false (3 / 10) with
        currentMapping := dictSet (dictSet idMapping 'A' 'C') 'C' 'A'
        currentText := subst_decrypt (dictSet (dictSet idMapping 'A' 'C') 'C' 'A') "AB".toList
        currentScore := ngramScore c9breaker.scorer
          (subst_decrypt (dictSet (dictSet idMapping 'A' 'C') 'C' 'A') "AB".toList)
        noImprovement := 0
        pairIdx := (hillInit c9breaker "AB".toList idMapping false (3 / 10)).pairIdx + 2 } := by
    apply hillStep_reject_then_jump
    · rfl
    · show ¬(0 < ngramScore c9scorer
        (subst_decrypt (dictSet (dictSet idMapping 'A' 'B') 'B' 'A') "AB".toList) -
        ngramScore c9scorer (subst_decrypt idMapping "AB".toList))
      rw [hd0, hd1, hsAB, hsBA]
      intro hcon
      linarith
    · show (1 : ℕ) / 10 < 0 + 1
      decide
    · rfl
  have hloop : hillLoop c9breaker "AB".toList false (3 / 10) (999 / 1000) c9pairs c9rand
      c9breaker.maxIterations (hillInit c9breaker "AB".toList idMapping false (3 / 10)) =
      Except.ok { hillInit c9breaker "AB".toList idMapping false (3 / 10) with
        currentMapping := dictSet (dictSet idMapping 'A' 'C') 'C' 'A'
        currentText := subst_decrypt (dictSet (dictSet idMapping 'A' 'C') 'C' 'A') "AB".toList
        currentScore := ngramScore c9breaker.scorer
          (subst_decrypt (dictSet (dictSet idMapping 'A' 'C') 'C' 'A') "AB".toList)
        noImprovement := 0
        pairIdx := (hillInit c9breaker "AB".toList idMapping false (3 / 10)).pairIdx + 2 } := by
    show (hillStep c9breaker "AB".toList false (3 / 10) (999 / 1000) c9pairs c9rand
      (hillInit c9breaker "AB".toList idMapping false (3 / 10)) >>= fun st1 =>
      hillLoop c9breaker "AB".toList false (3 / 10) (999 / 1000) c9pairs c9rand 0 st1) = _
    rw [hstep, exceptBind_ok]
    rfl
  refine ⟨{ hillInit c9breaker "AB".toList idMapping false (3 / 10) with
      currentMapping := dictSet (dictSet idMapping 'A' 'C') 'C' 'A'
      currentText := subst_decrypt (dictSet (dictSet idMapping 'A' 'C') 'C' 'A') "AB".toList
      currentScore := ngramScore c9breaker.scorer
        (subst_decrypt (dictSet (dictSet idMapping 'A' 'C') 'C' 'A') "AB".toList)
      noImprovement := 0
      pairIdx := (hillInit c9breaker "AB".toList idMapping false (3 / 10)).pairIdx + 2 },
    hloop, ?_, ?_⟩
  · show (hillLoop c9breaker "AB".toList false (3 / 10) (999 / 1000) c9pairs c9rand
      c9breaker.maxIterations (hillInit c9breaker "AB".toList idMapping false (3 / 10))
        >>= fun stF => pure (stF.bestMapping, stF.bestText, stF.bestScore)) = _
    rw [hloop, exceptBind_ok]
    rfl
  · show ngramScore c9scorer (subst_decrypt idMapping "AB".toList) <
      ngramScore c9scorer
        (subst_decrypt (dictSet (dictSet idMapping 'A' 'C') 'C' 'A') "AB".toList)
    rw [hd0, hd2, hsAB, hsCB]
    exact hlt2

/-! ### C3: acceptance in the chi-squared-only mode -/

/-- C3 (amended): in the frequency-only mode every candidate swap is accepted
exactly when it strictly lowers the composite `_evaluate_mapping` score —
chi-squared minus twice the common-bigram count — not the raw chi-squared:
the best composite score never increases across an iteration, it always equals
the composite score of the tracked best mapping, whenever the best mapping
changes (a swap was accepted) the composite score strictly drops, and
conversely every candidate swap that passes the sampling guards IS accepted
when its composite score is strictly lower and rejected (state unchanged)
when it is not. -/
theorem C3_freq_only_acceptance (fa : FrequencyAnalyzer) (ct : List Char)
    (sortedCipher : List (Char × ℚ)) (pr : ℕ × ℕ) (st : FreqOnlyState) :
    ((freqOnlyStep fa ct sortedCipher pr st).bestScore ≤ st.bestScore) ∧
    (st.bestScore = evaluate_mapping fa ct st.bestMapping →
      (freqOnlyStep fa ct sortedCipher pr st).bestScore =
        evaluate_mapping fa ct (freqOnlyStep fa ct sortedCipher pr st).bestMapping) ∧
    ((freqOnlyStep fa ct sortedCipher pr st).bestMapping ≠ st.bestMapping →
      (freqOnlyStep fa ct sortedCipher pr st).bestScore < st.bestScore) ∧
    (∀ tm : List (Char × Char), 2 ≤ sortedCipher.length →
      (dictMem st.bestMapping (sortedCipher.getD pr.1 ('A', 0)).1 &&
        dictMem st.bestMapping (sortedCipher.getD pr.2 ('A', 0)).1) = true →
      swapMapping st.bestMapping (sortedCipher.getD pr.1 ('A', 0)).1
        (sortedCipher.getD pr.2 ('A', 0)).1 = some tm →
      ((evaluate_mapping fa ct tm < st.bestScore →
        freqOnlyStep fa ct sortedCipher pr st =
          ⟨tm, subst_decrypt tm ct, evaluate_mapping fa ct tm⟩) ∧
       (¬ evaluate_mapping fa ct tm < st.bestScore →
        freqOnlyStep fa ct sortedCipher pr st = st))) := by
  have htriple :
      ((freqOnlyStep fa ct sortedCipher pr st).bestScore ≤ st.bestScore) ∧
      (st.bestScore = evaluate_mapping fa ct st.bestMapping →
        (freqOnlyStep fa ct sortedCipher pr st).bestScore =
          evaluate_mapping fa ct (freqOnlyStep fa ct sortedCipher pr st).bestMapping) ∧
      ((freqOnlyStep fa ct sortedCipher pr st).bestMapping ≠ st.bestMapping →
        (freqOnlyStep fa ct sortedCipher pr st).bestScore < st.bestScore) := by
    unfold freqOnlyStep
    split
    · split
      · split
        · split
          · rename_i hacc
            exact ⟨le_of_lt hacc, fun _ => rfl, fun _ => hacc⟩
          · exact ⟨le_refl _, fun h => h, fun hne => absurd rfl hne⟩
        · exact ⟨le_refl _, fun h => h, fun hne => absurd rfl hne⟩
      · exact ⟨le_refl _, fun h => h, fun hne => absurd rfl hne⟩
    · exact ⟨le_refl _, fun h => h, fun hne => absurd rfl hne⟩
  refine ⟨htriple.1, htriple.2.1, htriple.2.2, ?_⟩
  intro tm h2 hg hsw
  have hred : freqOnlyStep fa ct sortedCipher pr st
      = if evaluate_mapping fa ct tm < st.bestScore
        then ⟨tm, subst_decrypt tm ct, evaluate_mapping fa ct tm⟩
        else st := by
    unfold freqOnlyStep
    rw [if_pos h2, if_pos hg, hsw]
  constructor
  · intro hlt
    rw [hred, if_pos hlt]
  · intro hnlt
    rw [hred, if_neg hnlt]

section RatComputationII

attribute [local semireducible] Rat.add Rat.mul Rat.sub Rat.inv Rat.ofScientific

set_option maxRecDepth 100000

/-- Witness for C3 (amended) at the first loop iteration on the ciphertext
`YXYX`: the sampled pair `(0, 1)` names the two top-ranked cipher letters, the
candidate swap passes the guards, strictly lowers the composite score and is
therefore accepted, realizing the strict drop, the tracked-score invariant and
the acceptance direction. -/
theorem C3_freq_only_acceptance_witness :
    (freqOnlyStep defaultAnalyzer "YXYX".toList c3sorted (0, 1) c3state0).bestScore <
      c3state0.bestScore ∧
    (freqOnlyStep defaultAnalyzer "YXYX".toList c3sorted (0, 1) c3state0).bestScore =
      evaluate_mapping defaultAnalyzer "YXYX".toList
        (freqOnlyStep defaultAnalyzer "YXYX".toList c3sorted (0, 1) c3state0).bestMapping ∧
    freqOnlyStep defaultAnalyzer "YXYX".toList c3sorted (0, 1) c3state0 =
      ⟨c3swapTm, subst_decrypt c3swapTm "YXYX".toList,
        evaluate_mapping defaultAnalyzer "YXYX".toList c3swapTm⟩ :=
  ⟨(C3_freq_only_acceptance defaultAnalyzer "YXYX".toList c3sorted (0, 1) c3state0).2.2.1
      (by decide),
   (C3_freq_only_acceptance defaultAnalyzer "YXYX".toList c3sorted (0, 1) c3state0).2.1 rfl,
   ((C3_freq_only_acceptance defaultAnalyzer "YXYX".toList c3sorted (0, 1) c3state0).2.2.2
      c3swapTm (by decide) (by decide) (by decide)).1 (by decide)⟩

/-- C3 counterexample: on the ciphertext `YXYX` the first iteration of the
frequency-only loop accepts the swap of the two most frequent cipher letters
(the best mapping changes), yet the chi-squared statistic of the new
decryption is exactly equal to — not strictly lower than — the old one; the
acceptance was driven by the bigram bonus inside `_evaluate_mapping`. -/
theorem C3_accepted_swap_chi_not_lower_counterexample :
    (freqOnlyStep defaultAnalyzer "YXYX".toList c3sorted (0, 1) c3state0).bestMapping
      ≠ c3state0.bestMapping ∧
    calculate_chi_squared defaultAnalyzer
        (subst_decrypt (freqOnlyStep defaultAnalyzer "YXYX".toList c3sorted (0, 1)
          c3state0).bestMapping "YXYX".toList)
        (freqOnlyStep defaultAnalyzer "YXYX".toList c3sorted (0, 1) c3state0).bestMapping
      = calculate_chi_squared defaultAnalyzer
        (subst_decrypt c3state0.bestMapping "YXYX".toList) c3state0.bestMapping := by
  exact ⟨by decide, by decide⟩

end RatComputationII

/-! ### C8: the frequency-based initial mapping is a full bijection -/

theorem dictMem_iff {κ β : Type} [BEq κ] [LawfulBEq κ] (m : List (κ × β)) (k : κ) :
    dictMem m k = true ↔ k ∈ m.map Prod.fst := by
  unfold dictMem
  induction m with
  | nil => simp
  | cons e rest ih =>
    by_cases h : e.1 == k
    · have he : e.1 = k := eq_of_beq h
      simp [List.find?, h, he.symm]
    · rw [List.map_cons, List.mem_cons]
      have hne : ¬ k = e.1 := fun hk => h (by rw [hk]; exact beq_self_eq_true e.1)
      simp only [List.find?, h]
      rw [ih]
      constructor
      · exact Or.inr
      · rintro (hk | hk)
        · exact absurd hk hne
        · exact hk

theorem dictSet_of_not_mem {κ β : Type} [BEq κ] [LawfulBEq κ] (m : List (κ × β)) (k : κ)
    (v : β) (h : k ∉ m.map Prod.fst) : dictSet m k v = m ++ [(k, v)] := by
  induction m with
  | nil => rfl
  | cons e rest ih =>
    rw [List.map_cons, List.mem_cons] at h
    push_neg at h
    unfold dictSet
    rw [if_neg (fun hb => h.1 ((eq_of_beq hb).symm)), ih h.2]
    rfl

/-- Every plain letter `pickBestAux` carries in its accumulator or returns is
unused and satisfies any property shared by the list's letters and the
incoming accumulator. -/
theorem pickBestAux_spec (cfv : ℚ) (i : ℕ) (used : List Char) (Q : Char → Prop)
    (l : List (ℕ × Char × ℚ)) (hl2 : ∀ e ∈ l, Q e.2.1) :
    ∀ acc : Option (Char × ℚ),
    (∀ r0 : Char × ℚ, acc = some r0 → Q r0.1 ∧ r0.1 ∉ used) →
    ∀ r : Char × ℚ, pickBestAux cfv i used l acc = some r → Q r.1 ∧ r.1 ∉ used := by
  induction l with
  | nil =>
    intro acc hacc r h
    exact hacc r h
  | cons e rest ih =>
    obtain ⟨j, p, ev⟩ := e
    have ih' := ih (fun x hx => hl2 x (List.mem_cons_of_mem _ hx))
    intro acc hacc r h
    unfold pickBestAux at h
    split at h
    · exact ih' acc hacc r h
    · rename_i hp
      split at h
      · refine ih' _ ?_ r h
        rintro r0 hr0
        cases hr0
        exact ⟨hl2 (j, p, ev) (List.mem_cons_self _ _), hp⟩
      · split at h
        · refine ih' _ ?_ r h
          rintro r0 hr0
          cases hr0
          exact ⟨hl2 (j, p, ev) (List.mem_cons_self _ _), hp⟩
        · refine ih' _ ?_ r h
          rintro r0 hr0
          cases hr0
          exact hacc _ rfl

/-- `pickBestAux` returns `none` only when the accumulator was empty and every
scanned plain letter was already used. -/
theorem pickBestAux_none (cfv : ℚ) (i : ℕ) (used : List Char)
    (l : List (ℕ × Char × ℚ)) :
    ∀ acc : Option (Char × ℚ), pickBestAux cfv i used l acc = none →
    acc = none ∧ ∀ e ∈ l, e.2.1 ∈ used := by
  induction l with
  | nil =>
    intro acc h
    exact ⟨h, by simp⟩
  | cons e rest ih =>
    obtain ⟨j, p, ev⟩ := e
    intro acc h
    unfold pickBestAux at h
    split at h
    · rename_i hp
      obtain ⟨ha, hrest⟩ := ih acc h
      refine ⟨ha, ?_⟩
      intro x hx
      rcases List.mem_cons.mp hx with hx | hx
      · rw [hx]; exact hp
      · exact hrest x hx
    · split at h
      · obtain ⟨ha, _⟩ := ih _ h
        cases ha
      · split at h
        · obtain ⟨ha, _⟩ := ih _ h
          cases ha
        · obtain ⟨ha, _⟩ := ih _ h
          cases ha

/-- When some plain letter of the expected table is still unused, `pickBest`
returns an unused plain letter of the table. -/
theorem pickBest_some (cfv : ℚ) (i : ℕ) (se : List (Char × ℚ)) (used : List Char)
    (h : ∃ p ∈ se.map Prod.fst, p ∉ used) :
    ∃ bm, pickBest cfv i se used = some bm ∧ bm ∉ used ∧ bm ∈ se.map Prod.fst := by
  have henum : ∀ e ∈ se.enum, e.2.1 ∈ se.map Prod.fst := by
    intro e he
    have h2 : e.2 ∈ se := by
      rw [← List.enum_map_snd se]
      exact List.mem_map_of_mem Prod.snd he
    exact List.mem_map_of_mem Prod.fst h2
  cases haux : pickBestAux cfv i used se.enum none with
  | none =>
    obtain ⟨_, hall⟩ := pickBestAux_none cfv i used se.enum none haux
    obtain ⟨p, hp, hpu⟩ := h
    obtain ⟨pe, hpe, hpeq⟩ := List.mem_map.mp hp
    have hpe2 : pe ∈ se.enum.map Prod.snd := by
      rw [List.enum_map_snd]
      exact hpe
    obtain ⟨x, hx, hxeq⟩ := List.mem_map.mp hpe2
    have hxu := hall x hx
    rw [hxeq, hpeq] at hxu
    exact absurd hxu hpu
  | some r =>
    have hspec := pickBestAux_spec cfv i used (· ∈ se.map Prod.fst) se.enum henum none
      (fun r0 hr0 => by cases hr0) r haux
    refine ⟨r.1, ?_, hspec.2, hspec.1⟩
    unfold pickBest
    rw [haux]
    rfl

/-- Invariant-carrying specification of the greedy loop of
`create_frequency_mapping`: starting from a mapping whose values are exactly
`used`, processing fresh cipher letters appends each of them to the mapping's
keys and extends `used` by one distinct plain letter of the expected table per
cipher letter, as long as the table has enough plain letters. -/
theorem createMappingFold_spec (se : List (Char × ℚ))
    (hsenodup : (se.map Prod.fst).Nodup) :
    ∀ (l : List (ℕ × Char × ℚ)) (m : List (Char × Char)) (used : List Char),
    m.map Prod.snd = used →
    used.Nodup →
    used ⊆ se.map Prod.fst →
    used.length + l.length ≤ (se.map Prod.fst).length →
    (∀ e ∈ l, e.2.1 ∉ m.map Prod.fst) →
    (l.map (fun e => e.2.1)).Nodup →
    (createMappingFold se l (m, used)).1.map Prod.fst
        = m.map Prod.fst ++ l.map (fun e => e.2.1) ∧
    (createMappingFold se l (m, used)).1.map Prod.snd
        = (createMappingFold se l (m, used)).2 ∧
    (createMappingFold se l (m, used)).2.Nodup ∧
    (createMappingFold se l (m, used)).2 ⊆ se.map Prod.fst ∧
    (createMappingFold se l (m, used)).2.length = used.length + l.length := by
  intro l
  induction l with
  | nil =>
    intro m used hval hnodup hsub _ _ _
    refine ⟨?_, hval, hnodup, hsub, ?_⟩
    · show List.map Prod.fst m
        = List.map Prod.fst m ++ List.map (fun e => e.2.1) ([] : List (ℕ × Char × ℚ))
      rw [List.map_nil, List.append_nil]
    · show used.length = used.length + List.length ([] : List (ℕ × Char × ℚ))
      rw [List.length_nil]
      omega
  | cons e rest ih =>
    obtain ⟨i, cc, cfv⟩ := e
    intro m used hval hnodup hsub hlen hfresh hlnodup
    have hccfresh : cc ∉ m.map Prod.fst := hfresh (i, cc, cfv) (by simp)
    have hmem : ¬ (dictMem m cc = true) := fun hc => hccfresh ((dictMem_iff m cc).mp hc)
    have hlen' : used.length + rest.length + 1 ≤ (se.map Prod.fst).length := by
      simp only [List.length_cons] at hlen
      omega
    have hex : ∃ p ∈ se.map Prod.fst, p ∉ used := by
      by_contra hc
      push_neg at hc
      have hsub2 : se.map Prod.fst ⊆ used := fun p hp => hc p hp
      have := (List.subperm_of_subset hsenodup hsub2).length_le
      omega
    obtain ⟨bm, hpb, hbmu, hbmk⟩ := pickBest_some cfv i se used hex
    have hset : dictSet m cc bm = m ++ [(cc, bm)] :=
      dictSet_of_not_mem m cc bm hccfresh
    have hstep : createMappingFold se ((i, cc, cfv) :: rest) (m, used)
        = createMappingFold se rest (dictSet m cc bm, used ++ [bm]) := by
      conv_lhs => rw [createMappingFold]
      rw [if_neg hmem, hpb]
    rw [List.map_cons, List.nodup_cons] at hlnodup
    have hmaprest : ∀ x ∈ rest, x.2.1 ∉ (m ++ [(cc, bm)]).map Prod.fst := by
      intro x hx
      rw [List.map_append, List.mem_append]
      rintro (hmm | hcc)
      · exact hfresh x (by simp [hx]) hmm
      · have hcc' : x.2.1 = cc := by simpa using hcc
        have hmem2 : x.2.1 ∈ rest.map (fun y => y.2.1) :=
          List.mem_map_of_mem (fun y => y.2.1) hx
        rw [hcc'] at hmem2
        exact hlnodup.1 hmem2
    have husednodup : (used ++ [bm]).Nodup := by
      rw [List.nodup_append]
      refine ⟨hnodup, List.nodup_singleton bm, ?_⟩
      intro a ha hb
      have h1 : a = bm := by simpa using hb
      rw [h1] at ha
      exact hbmu ha
    have hihres := ih (m ++ [(cc, bm)]) (used ++ [bm])
      (by rw [List.map_append, hval]; rfl)
      husednodup
      (by
        intro a ha
        rcases List.mem_append.mp ha with ha | ha
        · exact hsub ha
        · have h1 : a = bm := by simpa using ha
          rw [h1]
          exact hbmk)
      (by simp only [List.length_append, List.length_singleton]; omega)
      hmaprest
      hlnodup.2
    rw [hstep, hset]
    refine ⟨?_, hihres.2.1, hihres.2.2.1, hihres.2.2.2.1, ?_⟩
    · rw [hihres.1, List.map_append, List.append_assoc]
      rfl
    · rw [hihres.2.2.2.2]
      simp only [List.length_append, List.length_cons, List.length_nil]
      omega

/-- C8. The spec asserts a full bijection for every non-empty ciphertext.
For a ciphertext containing at least one alphabetic character (and an analyzer
whose frequency-table keys are the 26 alphabet letters, as both construction
paths produce), `create_frequency_mapping` indeed returns a mapping whose keys
and values are each a permutation of the alphabet — a full bijection. The
non-empty-but-letterless case is settled separately. -/
theorem C8_frequency_mapping_bijection (fa : FrequencyAnalyzer) (ct : List Char)
    (hfa : List.Perm (fa.charFrequencies.map Prod.fst) alphabetList)
    (hct : lettersOnly ct ≠ []) :
    List.Perm ((create_frequency_mapping fa ct).map Prod.fst) alphabetList ∧
    List.Perm ((create_frequency_mapping fa ct).map Prod.snd) alphabetList := by
  have hccf : calculate_char_frequencies ct ≠ [] := by
    unfold calculate_char_frequencies
    rw [if_neg hct]
    intro hcontra
    have hlen0 := congrArg List.length hcontra
    rw [List.length_map] at hlen0
    exact absurd hlen0 (by decide)
  have hcckeys : (calculate_char_frequencies ct).map Prod.fst = alphabetList := by
    unfold calculate_char_frequencies
    rw [if_neg hct, List.map_map]
    show List.map id alphabetList = alphabetList
    exact List.map_id alphabetList
  set sc := sortDescByVal (calculate_char_frequencies ct) with hsc
  have hscperm : List.Perm (sc.map Prod.fst) alphabetList := by
    rw [hsc, ← hcckeys]
    exact (List.perm_insertionSort _ (calculate_char_frequencies ct)).map Prod.fst
  set se := sortDescByVal fa.charFrequencies with hse
  have hsekeys : List.Perm (se.map Prod.fst) alphabetList := by
    refine List.Perm.trans ?_ hfa
    exact (List.perm_insertionSort _ fa.charFrequencies).map Prod.fst
  have halpha_nodup : alphabetList.Nodup := by decide
  have hsenodup : (se.map Prod.fst).Nodup := hsekeys.nodup_iff.mpr halpha_nodup
  have henum_snd : sc.enum.map (fun e => e.2.1) = sc.map Prod.fst := by
    have : (fun e : ℕ × Char × ℚ => e.2.1) = Prod.fst ∘ Prod.snd := rfl
    rw [this, ← List.map_map, List.enum_map_snd]
  have hlenkeys : (se.map Prod.fst).length = alphabetList.length := hsekeys.length_eq
  have hlensc : sc.enum.length = alphabetList.length := by
    rw [List.enum_length]
    have := hscperm.length_eq
    rw [List.length_map] at this
    exact this
  have hspec := createMappingFold_spec se hsenodup sc.enum [] []
    rfl List.nodup_nil (by simp)
    (by rw [hlensc, hlenkeys]; simp only [List.length_nil]; omega)
    (by simp)
    (by rw [henum_snd]; exact hscperm.nodup_iff.mpr halpha_nodup)
  set st := createMappingFold se sc.enum ([], []) with hst
  have hkeys : st.1.map Prod.fst = sc.map Prod.fst := by
    have h := hspec.1
    rw [henum_snd] at h
    simpa using h
  have hkeysperm : List.Perm (st.1.map Prod.fst) alphabetList := hkeys ▸ hscperm
  have hvalsub : st.2 ⊆ se.map Prod.fst := hspec.2.2.2.1
  have hvallen : st.2.length = alphabetList.length := by
    rw [hspec.2.2.2.2, hlensc]
    simp
  have hvalperm : List.Perm st.2 alphabetList := by
    refine List.Perm.trans ?_ hsekeys
    refine (List.subperm_of_subset hspec.2.2.1 hvalsub).perm_of_length_le ?_
    rw [hvallen, hlenkeys]
  have hfilter : alphabetList.filter (fun c => !(dictMem st.1 c)) = [] := by
    rw [List.filter_eq_nil_iff]
    intro c hc
    have : c ∈ st.1.map Prod.fst := hkeysperm.mem_iff.mpr hc
    simp [(dictMem_iff st.1 c).mpr this]
  have hres : create_frequency_mapping fa ct = st.1 := by
    unfold create_frequency_mapping
    rw [if_neg hccf]
    rw [← hsc, ← hse, ← hst, hfilter]
    rfl
  rw [hres]
  exact ⟨hkeysperm, hspec.2.1 ▸ hvalperm⟩

/-- Witness: the C8 bijection theorem instantiated at the default analyzer and
the one-letter ciphertext "A". -/
theorem C8_frequency_mapping_bijection_witness :
    List.Perm ((create_frequency_mapping defaultAnalyzer "A".toList).map Prod.fst)
      alphabetList ∧
    List.Perm ((create_frequency_mapping defaultAnalyzer "A".toList).map Prod.snd)
      alphabetList :=
  C8_frequency_mapping_bijection defaultAnalyzer "A".toList (by decide) (by decide)

/-- Refuting the universal form of C8: the ciphertext "1" is non-empty but has
no alphabetic characters, so `create_frequency_mapping` returns the empty
mapping, whose keys are not a permutation of the alphabet. -/
theorem C8_letterless_nonempty_counterexample :
    "1".toList ≠ [] ∧
    create_frequency_mapping defaultAnalyzer "1".toList = [] ∧
    ¬ List.Perm ((create_frequency_mapping defaultAnalyzer "1".toList).map Prod.fst)
      alphabetList := by
  refine ⟨by decide, by decide, by decide⟩
theorem C9_best_score_monotone_witness :
    hillLoop c9breaker [] false (3 / 10) (999 / 1000) c9pairs c9rand 0
        (hillInit c9breaker [] idMapping false (3 / 10)) =
      .ok (hillInit c9breaker [] idMapping false (3 / 10)) ∧
    (hillInit c9breaker [] idMapping false (3 / 10)).bestScore ≤
      (hillInit c9breaker [] idMapping false (3 / 10)).bestScore :=
  ⟨rfl, C9_best_score_monotone c9breaker [] false (3 / 10) (999 / 1000) c9pairs c9rand 0
    (hillInit c9breaker [] idMapping false (3 / 10))
    (hillInit c9breaker [] idMapping false (3 / 10)) rfl⟩

end CipherBreak
